import Mathlib

/-!
# AliPhysics analysis tasks: a shallow embedding

Embedded sources:
* `PWGHF/jetsHF/AliAnalysisHFjetTagHFE.cxx`  (heavy-flavour jet tagging with electrons)
* `PWGPP/TRD/AliTRDonlineTrackletQA.cxx`     (TRD online tracklet QA)

Conventions of the embedding.
* `Double_t` / `Float_t` values are exact rationals (`ℚ`): rounding, infinities and NaN of
  IEEE arithmetic are not represented. The exceptions are `tagHFjet`, `ReduceJetEnergyScale`
  and `IsolationCut`, whose results are decided by a rounded square root next to a cut: there
  every operation on `double` is the IEEE 754 binary64 operation (section "IEEE 754 binary64
  arithmetic"), and the arguments are finite doubles.
* `Int_t` values are integers (`Int`); where the source can leave the 32-bit range the wrap is
  written out.
* A pointer that may be null is an `Option`.
* Loops are structural recursions over the list the loop walks, with the loop variables of the
  source as explicit arguments.
-/

namespace AliPhysics

/-! ## Machine integers and ROOT helpers -/

/-- Two's complement wrap of an integer into the range of `Int_t` (32 bit). -/
def wrapInt (x : Int) : Int := (x + 2147483648) % 4294967296 - 2147483648

/-- The C library `abs` on `int`: `x < 0 ? -x : x`, the negation taken in 32-bit two's
complement (so `abs(INT_MIN)` is `INT_MIN`, as on the platforms the code runs on). -/
def abs (x : Int) : Int := if x < 0 then wrapInt (-x) else x

namespace TMath

/-- ROOT constant `TMath::Pi()`, the literal of `TMath.h`. -/
def Pi : ℚ := 3.14159265358979323846

/-- ROOT `TMath::Abs` on floating point values. -/
def Abs (x : ℚ) : ℚ := if x < 0 then -x else x

end TMath

/-! ## IEEE 754 binary64 arithmetic

The values of the type `double` and the operations on them that `tagHFjet`,
`ReduceJetEnergyScale` and `IsolationCut` use: every operation returns the exact result rounded
to the nearest double, a tie going to the double with the even significand (the default rounding
mode), with gradual underflow and with overflow to an infinity. Each operation of an expression
is rounded on its own (no fused multiply-add, no wider intermediate format). -/

namespace Binary64

/-- Rounding of a rational to the nearest integer, a tie going to the even one. -/
def roundHalfEven (y : ℚ) : Int :=
  if y - (⌊y⌋ : ℚ) < 1 / 2 then ⌊y⌋
  else if 1 / 2 < y - (⌊y⌋ : ℚ) then ⌊y⌋ + 1
  else if ⌊y⌋ % 2 = 0 then ⌊y⌋
  else ⌊y⌋ + 1

/-- The number of binary digits of `n`, found with at most `fuel` halvings. -/
def bitLengthAux : Nat → Nat → Nat
  | 0, _ => 0
  | fuel + 1, n => if n = 0 then 0 else bitLengthAux fuel (n / 2) + 1

/-- The number of binary digits of `n` (0 for `n = 0`). -/
def bitLength (n : Nat) : Nat := bitLengthAux n n

/-- The integer part of the binary logarithm of a positive rational `x`: the `e` with
`2^e <= x < 2^(e+1)`, found from the digit counts of numerator and denominator. -/
def log2 (x : ℚ) : Int :=
  let e : Int := (bitLength x.num.natAbs : Int) - (bitLength x.den : Int)
  if (2 : ℚ) ^ e ≤ x then e else e - 1

/-- The exponent of the binade of `x`, not below the exponent -1022 of the subnormal range. -/
def exponent (x : ℚ) : Int := max (log2 |x|) (-1022)

/-- The spacing of the doubles in the binade of `x` (53 significant bits). -/
def ulp (x : ℚ) : ℚ := (2 : ℚ) ^ (exponent x - 52)

/-- Rounding to nearest, ties to even, onto the doubles with the exponent unbounded above. -/
def round (x : ℚ) : ℚ := (roundHalfEven (x / ulp x) : ℚ) * ulp x

/-- Integer square root by binary search on the bits: the largest `r` with `r * r <= n` among
the numbers built from the bits below `k`, added to `acc`. -/
def isqrtAux (n : Nat) : Nat → Nat → Nat
  | 0, acc => acc
  | k + 1, acc =>
      if (acc + 2 ^ k) * (acc + 2 ^ k) ≤ n then isqrtAux n k (acc + 2 ^ k) else isqrtAux n k acc

/-- Integer square root of a number below `2^106`: the largest `r` with `r * r <= n`. -/
def isqrt (n : Nat) : Nat := isqrtAux n 53 0

/-- The double nearest to the square root of a positive rational `x` (ties to even). -/
def sqrtRound (x : ℚ) : ℚ :=
  let k : Int := log2 x / 2
  let u : ℚ := (2 : ℚ) ^ (k - 52)
  let m : Nat := isqrt (⌊x / (u * u)⌋).toNat
  let mid : ℚ := ((2 * m + 1 : Nat) : ℚ) * u / 2
  if x < mid * mid then (m : ℚ) * u
  else if mid * mid < x then ((m + 1 : Nat) : ℚ) * u
  else if m % 2 = 0 then (m : ℚ) * u
  else ((m + 1 : Nat) : ℚ) * u

end Binary64

/-- A value of type `double`: a finite number, an infinity or NaN. The sign of a zero is not
kept. -/
inductive Double where
  | finite (q : ℚ)
  | posInf
  | negInf
  | nan
deriving DecidableEq

namespace Double

/-- The double obtained by rounding the exact value `x`: an infinity when the rounded value
leaves the range of the finite doubles. -/
def ofRat (x : ℚ) : Double :=
  if (2 : ℚ) ^ 1024 ≤ Binary64.round x then posInf
  else if Binary64.round x ≤ -(2 : ℚ) ^ 1024 then negInf
  else finite (Binary64.round x)

/-- The operation `a + b` on doubles: the rounded sum, NaN for infinities of opposite sign. -/
def add : Double → Double → Double
  | finite a, finite b => ofRat (a + b)
  | finite _, posInf => posInf
  | finite _, negInf => negInf
  | posInf, finite _ => posInf
  | posInf, posInf => posInf
  | negInf, finite _ => negInf
  | negInf, negInf => negInf
  | _, _ => nan

/-- The operation `a - b` on doubles: the rounded difference, NaN for infinities of equal
sign. -/
def sub : Double → Double → Double
  | finite a, finite b => ofRat (a - b)
  | finite _, posInf => negInf
  | finite _, negInf => posInf
  | posInf, finite _ => posInf
  | posInf, negInf => posInf
  | negInf, finite _ => negInf
  | negInf, posInf => negInf
  | _, _ => nan

/-- The call `pow(a, 2)`: the rounded product `a * a`, to which the compiler expands a `pow`
with the constant exponent 2. -/
def pow2 : Double → Double
  | finite a => ofRat (a * a)
  | posInf => posInf
  | negInf => posInf
  | nan => nan

/-- The call `sqrt(a)`: the square root rounded to the nearest double, NaN for a negative
argument. -/
def sqrt : Double → Double
  | finite a =>
      if a < 0 then nan
      else if a = 0 then finite 0
      else finite (Binary64.sqrtRound a)
  | posInf => posInf
  | negInf => nan
  | nan => nan

/-- The comparison `a < b` on doubles (false when an operand is NaN). -/
def lt : Double → Double → Bool
  | finite a, finite b => decide (a < b)
  | finite _, posInf => true
  | negInf, finite _ => true
  | negInf, posInf => true
  | _, _ => false

/-- The comparison `a <= b` on doubles (false when an operand is NaN). -/
def le : Double → Double → Bool
  | finite a, finite b => decide (a ≤ b)
  | finite _, posInf => true
  | posInf, posInf => true
  | negInf, finite _ => true
  | negInf, posInf => true
  | negInf, negInf => true
  | _, _ => false

/-- The comparison `a == b`: equal values, NaN being equal to nothing. -/
def eq : Double → Double → Bool
  | finite a, finite b => decide (a = b)
  | posInf, posInf => true
  | negInf, negInf => true
  | _, _ => false

/-- The operation `a / b` on doubles for a finite divisor `b` different from zero: the rounded
quotient. -/
def divFinite : Double → ℚ → Double
  | finite a, b => ofRat (a / b)
  | posInf, b => if 0 < b then posInf else negInf
  | negInf, b => if 0 < b then negInf else posInf
  | nan, _ => nan

/-- The operation `a * b` on doubles: the rounded product, NaN for zero times an infinity. -/
def mul : Double → Double → Double
  | finite a, finite b => ofRat (a * b)
  | finite a, posInf => if 0 < a then posInf else if a < 0 then negInf else nan
  | finite a, negInf => if 0 < a then negInf else if a < 0 then posInf else nan
  | posInf, finite b => if 0 < b then posInf else if b < 0 then negInf else nan
  | negInf, finite b => if 0 < b then negInf else if b < 0 then posInf else nan
  | posInf, posInf => posInf
  | posInf, negInf => negInf
  | negInf, posInf => negInf
  | negInf, negInf => posInf
  | _, _ => nan

/-- A non-negative value of the format: a non-negative finite double or `+inf`. -/
def Good : Double → Prop
  | finite r => 0 ≤ r ∧ Binary64.round r = r ∧ r < (2 : ℚ) ^ 1024
  | posInf => True
  | negInf => False
  | nan => False

end Double


/-! ## AliAnalysisHFjetTagHFE -/

namespace AliAnalysisHFjetTagHFE

/-- The part of `AliVParticle` the jet functions read: `Px()`, `Py()`, `Pz()`, `Pt()`. -/
structure AliVParticle where
  Px : ℚ
  Py : ℚ
  Pz : ℚ
  Pt : ℚ
deriving DecidableEq

/-- A jet as seen by its constituent loop: entry `j` is `jetC->TrackAt(j, fTracks)` for
`j < jetC->GetNumberOfTracks()`, a null pointer being `none`. -/
abbrev AliEmcalJet := List (Option AliVParticle)

/-- Lines 1663-1667 of `tagHFjet` (and 1694-1698 of `ReduceJetEnergyScale`): `Rmatch`,
`sqrt(pow(Rmom[0],2)+pow(Rmom[1],2)+pow(Rmom[2],2))` with `Rmom[i] = epT[i] - p_i`, in
`double` arithmetic: three subtractions, three squares, two additions from left to right and
the square root, each rounded. The momenta are finite doubles. -/
def Rmatch (epT : Fin 3 → ℚ) (jetcont : AliVParticle) : Double :=
  Double.sqrt
    (Double.add
      (Double.add
        (Double.pow2 (Double.sub (Double.finite (epT 0)) (Double.finite jetcont.Px)))
        (Double.pow2 (Double.sub (Double.finite (epT 1)) (Double.finite jetcont.Py))))
      (Double.pow2 (Double.sub (Double.finite (epT 2)) (Double.finite jetcont.Pz))))

/-- The constituent loop of `tagHFjet` (lines 1656-1679), `HFjetTag` being the loop variable.
The literal `1e-8` is the double nearest to it. -/
def tagHFjetLoop (epT : Fin 3 → ℚ) : List (Option AliVParticle) → Bool → Bool
  | [], HFjetTag => HFjetTag
  | none :: rest, HFjetTag => tagHFjetLoop epT rest HFjetTag
  | some jetcont :: rest, HFjetTag =>
      if Double.lt (Rmatch epT jetcont) (Double.ofRat 1e-8) then tagHFjetLoop epT rest true
      else tagHFjetLoop epT rest HFjetTag

/-- `AliAnalysisHFjetTagHFE::tagHFjet(jetC, epT, MCpid, maxpT_e)`; the arguments `MCpid` and
`maxpT_e` are not read by the body. -/
def tagHFjet (jetC : AliEmcalJet) (epT : Fin 3 → ℚ) : Bool :=
  tagHFjetLoop epT jetC false

/-- The computed distance of the corrected statements C1 and C19, written from their words: the
double obtained
from the electron momentum `epT` and the constituent momentum by rounding each of the three
differences, their three squares, the two sums (first plus second, then plus third) and the
square root. -/
def computedDistance (epT : Fin 3 → ℚ) (c : AliVParticle) : Double :=
  let dx := Double.sub (Double.finite (epT 0)) (Double.finite c.Px)
  let dy := Double.sub (Double.finite (epT 1)) (Double.finite c.Py)
  let dz := Double.sub (Double.finite (epT 2)) (Double.finite c.Pz)
  Double.sqrt (Double.add (Double.add (Double.pow2 dx) (Double.pow2 dy)) (Double.pow2 dz))

/-- The running sum of the corrected statements C18 and C19, written from their words: the
values are added one after the other, in list order, to a `double` that starts at zero, each addition rounded. -/
def runningSum (values : List ℚ) : Double :=
  values.foldl (fun acc p => Double.add acc (Double.finite p)) (Double.finite 0)

/-- `AliAnalysisHFjetTagHFE::isHeavyFlavour(int Mompdg)` (lines 1904-1916). -/
def isHeavyFlavour (Mompdg : Int) : Bool :=
  let iCharm : Bool :=
    abs Mompdg == 411 || abs Mompdg == 413 || abs Mompdg == 421 || abs Mompdg == 423
      || abs Mompdg == 431
  let iBeauty : Bool :=
    abs Mompdg == 511 || abs Mompdg == 513 || abs Mompdg == 521 || abs Mompdg == 523
      || abs Mompdg == 531
  let iHeavy : Bool := if iCharm || iBeauty then true else false
  iHeavy

/-- `AliAnalysisHFjetTagHFE::isPhotonic(int Mompdg)` (lines 1919-1927). -/
def isPhotonic (Mompdg : Int) : Bool :=
  let iphotonic : Bool :=
    if abs Mompdg == 22 || abs Mompdg == 111 || abs Mompdg == 221 then true else false
  iphotonic

/-- The part of the matched `AliVCluster` read by the electron selection of `Run`.
`Phi` is `clustpos.Phi()` of the `TVector3` built from `GetPosition`, in `(-pi, pi]`. -/
structure AliVCluster where
  IsEMCAL : Bool
  Phi : ℚ
  TrackDx : ℚ
  TrackDz : ℚ
  E : ℚ
  M20 : ℚ
deriving DecidableEq

/-- The task settings read by the electron selection of `Run`. -/
structure Settings where
  fmcData : Bool
  iMCcorr : Bool
  fmimSig : ℚ
  fmimEop : ℚ
  fmimM20 : ℚ
  fmaxM20 : ℚ

/-- Lines 1303-1305 of `Run`: the cluster azimuth, a negative value moved up by `2 pi`. -/
def emcphi (clustMatch : AliVCluster) : ℚ :=
  if clustMatch.Phi < 0 then clustMatch.Phi + 2 * TMath.Pi else clustMatch.Phi

/-- Lines 1318-1320 of `Run`: `eop`, from the cluster energy `clustMatchE` and the track
momentum `P = track->P()`. -/
def eop (s : Settings) (clustMatchE P : ℚ) : ℚ :=
  let eop0 : ℚ := -1.0
  let eop1 : ℚ := if P > 0 then clustMatchE / P else eop0
  let eop2 : ℚ := if s.fmcData && s.iMCcorr then eop1 + 0.04 else eop1
  eop2

/-- Lines 1292-1346 of `Run`: the value of `isElectron` at line 1345 for a track with momentum
`P` and TPC n-sigma `fTPCnSigma` whose matched cluster is `clustMatch` (`none` for a null
pointer). A `continue` of the source leaves the track loop body with `isElectron` false. -/
def Run_isElectron (s : Settings) (P fTPCnSigma : ℚ) (clustMatch : Option AliVCluster) : Bool :=
  match clustMatch with
  | none => false
  | some cl =>
    if !cl.IsEMCAL then false
    else
      let fClsTypeEMC : Bool := decide (emcphi cl > 1.39) && decide (emcphi cl < 3.265)
      if !fClsTypeEMC then false
      else if decide (TMath.Abs cl.TrackDx > 0.05) || decide (TMath.Abs cl.TrackDz > 0.05) then
        false
      else
        let clustMatchE := cl.E
        let m20 := cl.M20
        if decide (m20 < s.fmimM20) || decide (m20 > s.fmaxM20) then false
        else
          let eop := eop s clustMatchE P
          if decide (fTPCnSigma < s.fmimSig) || decide (fTPCnSigma > 3) then false
          else if decide (eop > s.fmimEop) && decide (eop < 1.3) && decide (m20 < s.fmaxM20)
              && decide (m20 > s.fmimM20) then true
          else false

end AliAnalysisHFjetTagHFE

/-! ## AliTRDonlineTrackletQA -/

namespace AliTRDonlineTrackletQA

/-- The part of `AliESDTrdTracklet` read by `Exec` and `PlotMC`: `GetLabel()`, `GetDetector()`,
`GetBinY()`, `GetBinZ()`, `GetLocalY()`, `GetDyDx()`. -/
structure AliESDTrdTracklet where
  Label : Int
  Detector : Int
  BinY : Int
  BinZ : Int
  LocalY : ℚ
  DyDx : ℚ
deriving DecidableEq

/-- The part of `AliTrackReference` read by `Exec` and `PlotMC`; `isTRD` is
`DetectorId() == AliTrackReference::kTRD`. -/
structure AliTrackReference where
  isTRD : Bool
  Pt : ℚ
  Label : Int
  LocalX : ℚ
  LocalY : ℚ
  Z : ℚ
  Alpha : ℚ
deriving DecidableEq

/-- An MC particle of `fMCEvent`: `IsPhysicalPrimary(iTrack)`, `Pt()`, and its track references
in the order of `GetTrackReference(i)`. -/
structure AliMCParticle where
  IsPhysicalPrimary : Bool
  Pt : ℚ
  TrackReferences : List AliTrackReference
deriving DecidableEq

/-- The local arrays `TList trackletsSim[540]` and `TList trackletsRaw[540]` of `Exec`, as a map
from the index to the list stored there. The arrays have 540 entries: an index of 540 or more
is outside them, so statements about `Exec` are made for events whose tracklets have a detector
number below 540. -/
abbrev TListArray := Int → List AliESDTrdTracklet

/-- The call `a[d].Add(tracklet)`: `TList::Add` appends at the end of the list. -/
def TListArray.Add (a : TListArray) (d : Int) (tracklet : AliESDTrdTracklet) : TListArray :=
  fun i => if i = d then a i ++ [tracklet] else a i

/-- Every tracklet of the event has a detector number inside the 540-entry arrays. -/
def detectorsInRange (esd : List (Option AliESDTrdTracklet)) : Prop :=
  ∀ t : AliESDTrdTracklet, some t ∈ esd → t.Detector < 540

/-- Lines 346-395 of `Exec`: the loop over `fESD->GetTrdTracklet(iTracklet)` (`none` for a null
pointer) with the lists `(trackletsSim, trackletsRaw)` as loop state. The histogram fills and
the calls of `PlotMC` and `PlotESD` in the loop body do not touch the lists. -/
def readTracklets :
    List (Option AliESDTrdTracklet) → TListArray × TListArray → TListArray × TListArray
  | [], st => st
  | none :: rest, st => readTracklets rest st
  | some tracklet :: rest, (trackletsSim, trackletsRaw) =>
      if tracklet.Label ≥ -1 then
        if tracklet.Detector > -1 then
          readTracklets rest (trackletsSim.Add tracklet.Detector tracklet, trackletsRaw)
        else readTracklets rest (trackletsSim, trackletsRaw)
      else
        if tracklet.Detector > -1 then
          readTracklets rest (trackletsSim, trackletsRaw.Add tracklet.Detector tracklet)
        else readTracklets rest (trackletsSim, trackletsRaw)

/-- The array `trackletsSim` after the read loop, both arrays starting empty. -/
def trackletsSim (esd : List (Option AliESDTrdTracklet)) : TListArray :=
  (readTracklets esd (fun _ => [], fun _ => [])).1

/-- The array `trackletsRaw` after the read loop, both arrays starting empty. -/
def trackletsRaw (esd : List (Option AliESDTrdTracklet)) : TListArray :=
  (readTracklets esd (fun _ => [], fun _ => [])).2

/-- `TMath::Abs(trackletRaw->GetBinY() - trackletSim->GetBinY())`. `GetBinY` is a 13-bit signed
field of the tracklet word, so the difference stays inside `Int_t`. -/
def dBinY (trackletRaw trackletSim : AliESDTrdTracklet) : Int :=
  |trackletRaw.BinY - trackletSim.BinY|

/-- Lines 417-432 of `Exec`: the search over `trackletsSim[iDetector]` from position
`iTrackletSim` on, with loop variables `trackletMatch` and `yMax`. The pointer `trackletMatch`
is the position of the tracklet in the list together with the tracklet. -/
def searchLoop (trackletRaw : AliESDTrdTracklet) :
    List AliESDTrdTracklet → Nat → Option (Nat × AliESDTrdTracklet) → Int →
      Option (Nat × AliESDTrdTracklet)
  | [], _, trackletMatch, _ => trackletMatch
  | trackletSim :: rest, iTrackletSim, trackletMatch, yMax =>
      if trackletRaw.BinZ ≠ trackletSim.BinZ then
        searchLoop trackletRaw rest (iTrackletSim + 1) trackletMatch yMax
      else if dBinY trackletRaw trackletSim > yMax then
        searchLoop trackletRaw rest (iTrackletSim + 1) trackletMatch yMax
      else
        searchLoop trackletRaw rest (iTrackletSim + 1) (some (iTrackletSim, trackletSim))
          (dBinY trackletRaw trackletSim)

/-- Lines 413-432: the search for one raw tracklet, started with no match and `yMax = 100`. -/
def searchBestMatch (trackletRaw : AliESDTrdTracklet) (sims : List AliESDTrdTracklet) :
    Option (Nat × AliESDTrdTracklet) :=
  searchLoop trackletRaw sims 0 none 100

/-- State of the comparison of one detector: the current `trackletsSim[iDetector]`, the matched
pairs `(raw, sim)` (one fill of `fHistYdiff`, `fHistdYdiff`, `fHistdYdYraw`, `fHistPidDiff`
each) and the raw tracklets stored as unmatched (one fill of `fHistNoMatchRaw` each). -/
structure MatchState where
  sims : List AliESDTrdTracklet
  matched : List (AliESDTrdTracklet × AliESDTrdTracklet)
  noMatchRaw : List AliESDTrdTracklet
deriving DecidableEq

/-- Lines 410-445: the body of the loop over the raw tracklets of a detector.
`trackletsSim[iDetector].Remove(trackletMatch)` takes the matched object out of the list. -/
def matchRaw (st : MatchState) (trackletRaw : AliESDTrdTracklet) : MatchState :=
  match searchBestMatch trackletRaw st.sims with
  | some (i, trackletMatch) =>
      { sims := st.sims.eraseIdx i
        matched := st.matched ++ [(trackletRaw, trackletMatch)]
        noMatchRaw := st.noMatchRaw }
  | none =>
      { sims := st.sims
        matched := st.matched
        noMatchRaw := st.noMatchRaw ++ [trackletRaw] }

/-- Lines 410-445: the loop over the raw tracklets of a detector. -/
def matchLoop : List AliESDTrdTracklet → MatchState → MatchState
  | [], st => st
  | trackletRaw :: rest, st => matchLoop rest (matchRaw st trackletRaw)

/-- Lines 409-452 for one value of `iDetector`: the comparison of `trackletsRaw[iDetector]` with
`trackletsSim[iDetector]`. The tracklets left in `sims` at the end are the ones stored as
unmatched simulated (one fill of `fHistNoMatchSim` each, lines 447-451). -/
def matchDetector (raws sims : List AliESDTrdTracklet) : MatchState :=
  matchLoop raws { sims := sims, matched := [], noMatchRaw := [] }

/-- The comparison of detector `iDetector` in `Exec` for the ESD tracklets `esd`. -/
def Exec_match (esd : List (Option AliESDTrdTracklet)) (iDetector : Fin 540) : MatchState :=
  matchDetector (trackletsRaw esd (iDetector.val : Int)) (trackletsSim esd (iDetector.val : Int))

/-- The array `trackletsSim` after the detector loop of lines 409-452: the loop body for
`iDetector` reads and changes entry `iDetector` only. -/
def trackletsSimAfterMatch (esd : List (Option AliESDTrdTracklet)) : TListArray :=
  fun d =>
    if 0 ≤ d ∧ d < 540 then (matchDetector (trackletsRaw esd d) (trackletsSim esd d)).sims
    else trackletsSim esd d

/-- ROOT `TMath::Abs` on `Int_t` values that stay inside the 32-bit range. -/
def AbsInt (x : Int) : Int := if x < 0 then -x else x

/-- Conversion of a floating point value to `Int_t`: the fractional part is dropped. -/
def toInt (x : ℚ) : Int := if x < 0 then -⌊-x⌋ else ⌊x⌋

/-- A histogram fill of the track-reference part of `Exec` (lines 510-549), named after the
histogram member without its leading `f`. -/
inductive Fill where
  | HistCanddY (x : ℚ)
  | HistTrklPerRef (nTrackletsPerRef : Nat)
  | HistdYdYref (x : ℚ) (defl : Int)
  | HistFounddY (x : ℚ)
deriving DecidableEq

/-- One execution of line 511 of `Exec`: the two remembered track references, the deflection
length computed from them and the histogram fills that follow it in the same loop pass. -/
structure PairLog where
  tr0 : AliTrackReference
  tr1 : AliTrackReference
  deflLength : ℚ
  fills : List Fill
deriving DecidableEq

/-- Lines 525-540 of `Exec`: the loop `while (trkl = nextTracklet())` over the collection the
iterator was built on, with loop variables `nTrackletsPerRef` and `defl`. `GetX` and `GetZ` are
the member functions of the task (declared in the header, which uses the TRD geometry). -/
def countLoop (GetX GetZ : AliESDTrdTracklet → ℚ) (trackRef : AliTrackReference) (label : Int) :
    List AliESDTrdTracklet → Nat → Int → Nat × Int
  | [], nTrackletsPerRef, defl => (nTrackletsPerRef, defl)
  | trkl :: rest, nTrackletsPerRef, defl =>
      if trkl.Label ≠ label then
        countLoop GetX GetZ trackRef label rest nTrackletsPerRef defl
      else if TMath.Abs (trackRef.LocalX - GetX trkl) > 5 then
        countLoop GetX GetZ trackRef label rest nTrackletsPerRef defl
      else if decide (TMath.Abs (trackRef.LocalY - trkl.LocalY) < 5) &&
          decide (TMath.Abs (trackRef.Z - GetZ trkl) < 5) then
        countLoop GetX GetZ trackRef label rest (nTrackletsPerRef + 1) (toInt trkl.DyDx)
      else
        countLoop GetX GetZ trackRef label rest nTrackletsPerRef defl

/-- Lines 475-551 of `Exec`: the loop over the track references of one MC particle. The loop
variables `tr[0]` and `nRef` are one argument: `none` stands for `nRef == 0`, and `some t` for
`nRef == 1` with `tr[0] == t` (`nRef` is 0 or 1 whenever the loop body starts, since every path
through lines 505-550 sets it back to 0). `iterated` is the collection walked by the iterator
`nextTracklet` of line 524. -/
def trackRefLoop (fMinPt : ℚ) (GetX GetZ : AliESDTrdTracklet → ℚ)
    (iterated : List AliESDTrdTracklet) :
    List AliTrackReference → Option AliTrackReference → List PairLog
  | [], _ => []
  | trackRef :: rest, tr =>
      if !trackRef.isTRD then trackRefLoop fMinPt GetX GetZ iterated rest tr
      else if trackRef.Pt < fMinPt then trackRefLoop fMinPt GetX GetZ iterated rest tr
      else
        let label := trackRef.Label
        if label < 0 then trackRefLoop fMinPt GetX GetZ iterated rest tr
        else
          match tr with
          | none => trackRefLoop fMinPt GetX GetZ iterated rest (some trackRef)
          | some tr0 =>
            if TMath.Abs (trackRef.LocalX - tr0.LocalX) > 5 then
              trackRefLoop fMinPt GetX GetZ iterated rest (some trackRef)
            else if TMath.Abs (trackRef.LocalX - tr0.LocalX) < 0.5 then
              trackRefLoop fMinPt GetX GetZ iterated rest (some tr0)
            else
              let tr1 := trackRef
              let deflLength : ℚ := 3 * (tr1.LocalY - tr0.LocalY) / (tr1.LocalX - tr0.LocalX)
              if deflLength < 1 then
                let r := countLoop GetX GetZ trackRef label iterated 0 0
                let nTrackletsPerRef := r.1
                let defl := r.2
                { tr0 := tr0, tr1 := tr1, deflLength := deflLength,
                  fills :=
                    [Fill.HistCanddY (deflLength / 140e-4), Fill.HistTrklPerRef nTrackletsPerRef]
                    ++ (if nTrackletsPerRef = 1 then
                          [Fill.HistdYdYref (deflLength / 140e-4) defl,
                           Fill.HistFounddY (deflLength / 140e-4)]
                        else []) }
                  :: trackRefLoop fMinPt GetX GetZ iterated rest none
              else
                { tr0 := tr0, tr1 := tr1, deflLength := deflLength, fills := [] }
                  :: trackRefLoop fMinPt GetX GetZ iterated rest none

/-- Lines 459-552 of `Exec`: the loop over the MC particles of `fMCEvent`. -/
def mcLoop (fMinPt : ℚ) (GetX GetZ : AliESDTrdTracklet → ℚ)
    (iterated : List AliESDTrdTracklet) : List AliMCParticle → List PairLog
  | [] => []
  | mcpart :: rest =>
      if !mcpart.IsPhysicalPrimary then mcLoop fMinPt GetX GetZ iterated rest
      else if TMath.Abs mcpart.Pt < fMinPt then mcLoop fMinPt GetX GetZ iterated rest
      else
        trackRefLoop fMinPt GetX GetZ iterated mcpart.TrackReferences none
          ++ mcLoop fMinPt GetX GetZ iterated rest

/-- Lines 456-553 of `Exec` after the ESD read loop and the detector loop. The iterator of line
524 is `TIter nextTracklet(trackletsSim)`: its argument is the array `trackletsSim` itself,
which converts to the address of its first entry, so the collection walked is
`trackletsSim[0]` in the state the detector loop left it in. `fMCEvent` is `none` for a null
pointer. -/
def Exec_MC (fMinPt : ℚ) (GetX GetZ : AliESDTrdTracklet → ℚ)
    (esd : List (Option AliESDTrdTracklet)) (fMCEvent : Option (List AliMCParticle)) :
    List PairLog :=
  match fMCEvent with
  | none => []
  | some tracks => mcLoop fMinPt GetX GetZ (trackletsSimAfterMatch esd 0) tracks

/-- The values filled into `fHistTrklPerRef` by a list of loop passes, in order. -/
def trklPerRefFills (log : List PairLog) : List Nat :=
  (log.map (fun p => p.fills.filterMap
    (fun f => match f with
      | Fill.HistTrklPerRef n => some n
      | _ => none))).flatten

/-- The number named by the title of `fHistTrklPerRef`, written from the words of the
specification: the simulated tracklets of the event (label `>= -1`), over all 540 detectors,
that carry the label of the track reference, lie within 5 cm of it in local x and less than
5 cm from it in local y and in z. -/
def specTrackletsPerRef (GetX GetZ : AliESDTrdTracklet → ℚ)
    (esd : List (Option AliESDTrdTracklet)) (trackRef : AliTrackReference) : Nat :=
  ((esd.filterMap id).filter (fun t =>
    decide (t.Label ≥ -1) && decide (0 ≤ t.Detector) && decide (t.Detector < 540) &&
    decide (t.Label = trackRef.Label) &&
    decide (|trackRef.LocalX - GetX t| ≤ 5) &&
    decide (|trackRef.LocalY - t.LocalY| < 5) &&
    decide (|trackRef.Z - GetZ t| < 5))).length

/-- Lines 679-693 of `PlotMC`: the search for track references near the tracklet, `xTrkl` being
`GetX(trkl)`. The array `tr` with its fill count `nTrackRefs` is the list `tr`; the loop is left
by `break` as soon as it holds two entries. -/
def PlotMC_refLoop (fMinPt xTrkl : ℚ) :
    List AliTrackReference → List AliTrackReference → List AliTrackReference
  | [], tr => tr
  | trackRef :: rest, tr =>
      if !trackRef.isTRD then PlotMC_refLoop fMinPt xTrkl rest tr
      else if trackRef.Pt < fMinPt then PlotMC_refLoop fMinPt xTrkl rest tr
      else if TMath.Abs (xTrkl - trackRef.LocalX) > 5 then PlotMC_refLoop fMinPt xTrkl rest tr
      else
        let tr2 := tr ++ [trackRef]
        if tr2.length = 2 then tr2
        else PlotMC_refLoop fMinPt xTrkl rest tr2

/-- `AliTRDonlineTrackletQA::PlotMC(trkl)` (lines 643-748). The result is `some d` when the
residual histograms and the tree are filled (lines 721-739), `d` being the value `fDYdiff`
filled into `fHistdYres` and the tree, and `none` when the function fills nothing. The other
values filled in the same block (`fYdiff`, `yMClocal`) use the tangent and the pad geometry.
In the low-pt test of line 672 `TMath::Abs` is applied to the result of the comparison. -/
def PlotMC (fMinPt : ℚ) (GetX : AliESDTrdTracklet → ℚ) (fMCEvent : List AliMCParticle)
    (trkl : AliESDTrdTracklet) : Option ℚ :=
  let label := trkl.Label
  if label < 0 then none
  else if label ≥ (fMCEvent.length : Int) then none
  else
    match fMCEvent[label.toNat]? with
    | none => none
    | some track =>
      if AbsInt (if track.Pt < fMinPt then 1 else 0) ≠ 0 then none
      else
        match PlotMC_refLoop fMinPt (GetX trkl) track.TrackReferences [] with
        | [tr0, tr1] =>
          if TMath.Abs ((tr0.Alpha * 180 / TMath.Pi - 10) / 20
              - ((Int.tdiv trkl.Detector 30 : Int) : ℚ)) > 0.1 then none
          else if decide ((tr1.LocalX - tr0.LocalX) > 0.1) &&
              decide (TMath.Abs (tr1.LocalY - tr0.LocalY) < 1) then
            let slope : ℚ := 3 * (tr1.LocalY - tr0.LocalY) / (tr1.LocalX - tr0.LocalX)
            if TMath.Abs slope < 64 * 140e-4 then
              some (3 * trkl.DyDx
                - 3 * (tr1.LocalY - tr0.LocalY) / (tr1.LocalX - tr0.LocalX))
            else none
          else none
        | _ => none

/-- The number of track references of `track` that are TRD references with `pt` of at least
`fMinPt` within 5 cm of the radial position `xTrkl`, counted over the whole particle. -/
def nearTrackRefs (fMinPt xTrkl : ℚ) (track : AliMCParticle) : Nat :=
  (track.TrackReferences.filter (fun r =>
    r.isTRD && decide (fMinPt ≤ r.Pt) && decide (|xTrkl - r.LocalX| ≤ 5))).length

end AliTRDonlineTrackletQA

/-! ## AliAnalysisHFjetTagHFE: event selection, partner search, isolation, kink cut -/

/-- The test `sqrt(s) > c` on exact values, decided without extracting the root. -/
def sqrtGt (s c : ℚ) : Bool := decide (c < 0 ∨ c ^ 2 < s)

namespace AliAnalysisHFjetTagHFE

/-- Lines 983-994 of `Run`: the value of the condition `TMath::Abs(Zvertex)<10.0 && fcentID` that
guards the whole analysis block (lines 995-1641: the fill of `fHistCent` and the cluster, jet
and track loops). -/
def Run_eventSelected (fcentMim fcentMax centrality Zvertex : ℚ) : Bool :=
  let fcentID : Bool :=
    if fcentMim < -10 then true
    else if decide (centrality > fcentMim) && decide (centrality < fcentMax) then true
    else false
  decide (TMath.Abs Zvertex < 10.0) && fcentID

/-- A partner track as read by `SelectPhotonicElectron`: `TestFilterMask(kTrkTPCOnly)`,
`GetTPCNcls()`, the `kITSrefit` and `kTPCrefit` bits of `GetStatus()`, `Pt()`, `Eta()`, the TPC
electron n-sigma of `fpidResponse`, `Charge()`, and for the `AliKFParticle recg` built from the
candidate and this partner its `GetNDF()`, `GetChi2()` and the mass given by `GetMass`. -/
structure AssoTrack where
  TestFilterMaskTPCOnly : Bool
  TPCNcls : Int
  ITSrefit : Bool
  TPCrefit : Bool
  Pt : ℚ
  Eta : ℚ
  nsigma : ℚ
  Charge : Int
  recgNDF : Int
  recgChi2 : ℚ
  recgMass : ℚ
deriving DecidableEq

/-- Lines 1735-1806 of `SelectPhotonicElectron`: the loop over `jtrack`, entry `jtrack` of the
list being `VAssotrack` (`none` for a null pointer), with loop variables `flagPhotonicElec` and
`flagConvinatElec`. `charge` is `track->Charge()` of the candidate. -/
def SelectPhotonicElectron_loop (itrack charge : Int) (fptAssocut fInvmassCut : ℚ) :
    List (Option AssoTrack) → Int → Bool → Bool → Bool × Bool
  | [], _, flagPhotonicElec, flagConvinatElec => (flagPhotonicElec, flagConvinatElec)
  | none :: rest, jtrack, flagPhotonicElec, flagConvinatElec =>
      SelectPhotonicElectron_loop itrack charge fptAssocut fInvmassCut rest (jtrack + 1)
        flagPhotonicElec flagConvinatElec
  | some a :: rest, jtrack, flagPhotonicElec, flagConvinatElec =>
      let next := SelectPhotonicElectron_loop itrack charge fptAssocut fInvmassCut rest
        (jtrack + 1)
      if jtrack = itrack then next flagPhotonicElec flagConvinatElec
      else
        let fFlagLS : Bool := decide (charge = a.Charge)
        let fFlagULS : Bool := decide (charge ≠ a.Charge)
        if !a.TestFilterMaskTPCOnly then next flagPhotonicElec flagConvinatElec
        else if a.TPCNcls < 70 then next flagPhotonicElec flagConvinatElec
        else if !a.ITSrefit || !a.TPCrefit then next flagPhotonicElec flagConvinatElec
        else if a.Pt < fptAssocut then next flagPhotonicElec flagConvinatElec
        else if decide (a.Eta < -0.9) || decide (a.Eta > 0.9) then
          next flagPhotonicElec flagConvinatElec
        else if decide (a.nsigma < -3) || decide (a.nsigma > 3) then
          next flagPhotonicElec flagConvinatElec
        else if a.recgNDF < 1 then next flagPhotonicElec flagConvinatElec
        else
          let chi2recg : ℚ := a.recgChi2 / (a.recgNDF : ℚ)
          if sqrtGt (TMath.Abs chi2recg) 3 then next flagPhotonicElec flagConvinatElec
          else
            let mass := a.recgMass
            let flagPhotonicElec2 : Bool :=
              if decide (mass < fInvmassCut) && fFlagULS && !flagPhotonicElec then true
              else flagPhotonicElec
            let flagConvinatElec2 : Bool :=
              if decide (mass < fInvmassCut) && fFlagLS && !flagConvinatElec then true
              else flagConvinatElec
            next flagPhotonicElec2 flagConvinatElec2

/-- `AliAnalysisHFjetTagHFE::SelectPhotonicElectron(itrack, track, fFlagPhotonicElec,
fFlagConvinatElec)` (lines 1715-1809). The two reference arguments come in with the values
`fFlagPhotonicElec` and `fFlagConvinatElec`; the result is the pair of values they hold when
the function returns. `tracks` is the track list (`ftrack`, or the tracks of `fAOD`). -/
def SelectPhotonicElectron (itrack charge : Int) (fptAssocut fInvmassCut : ℚ)
    (tracks : List (Option AssoTrack)) (_fFlagPhotonicElec _fFlagConvinatElec : Bool) :
    Bool × Bool :=
  SelectPhotonicElectron_loop itrack charge fptAssocut fInvmassCut tracks 0 false false

/-- The partner cuts in the words of the specification: TPC-only filter mask, at least 70 TPC
clusters, ITS and TPC refit, `pt >= fptAssocut`, `|eta| <= 0.9`, `|nsigma| <= 3`, pair
`NDF >= 1` and `sqrt|chi2/NDF| <= 3`. -/
def passesPartnerCuts (fptAssocut : ℚ) (a : AssoTrack) : Prop :=
  a.TestFilterMaskTPCOnly = true ∧ 70 ≤ a.TPCNcls ∧ a.ITSrefit = true ∧ a.TPCrefit = true ∧
  fptAssocut ≤ a.Pt ∧ |a.Eta| ≤ 0.9 ∧ |a.nsigma| ≤ 3 ∧ 1 ≤ a.recgNDF ∧
  Real.sqrt ((|a.recgChi2 / (a.recgNDF : ℚ)| : ℚ) : ℝ) ≤ 3

/-- The conditions under which the loop body of `SelectPhotonicElectron` reaches the mass test
with a mass below the cut, for partner `a` at position `jtrack`, as one computable test. -/
def partnerAccepted (itrack : Int) (fptAssocut fInvmassCut : ℚ) (jtrack : Int)
    (a : AssoTrack) : Bool :=
  decide (jtrack ≠ itrack) && a.TestFilterMaskTPCOnly && decide (70 ≤ a.TPCNcls) &&
  a.ITSrefit && a.TPCrefit && decide (fptAssocut ≤ a.Pt) &&
  decide (-0.9 ≤ a.Eta) && decide (a.Eta ≤ 0.9) &&
  decide (-3 ≤ a.nsigma) && decide (a.nsigma ≤ 3) &&
  decide (1 ≤ a.recgNDF) && !sqrtGt (TMath.Abs (a.recgChi2 / (a.recgNDF : ℚ))) 3 &&
  decide (a.recgMass < fInvmassCut)

/-- A cluster of `fCaloClusters` as read by `IsolationCut`: `IsEMCAL()`, the azimuth
`Assocpos.Phi()` (in `(-pi, pi]`) and pseudorapidity `Assocpos.Eta()` of the `TVector3` built
from `GetPosition`, and `E()`, three finite doubles. -/
structure AssoCluster where
  IsEMCAL : Bool
  Phi : ℚ
  Eta : ℚ
  E : ℚ
deriving DecidableEq

/-- Lines 2161-2162 of `IsolationCut`: `AssoPhi`, a negative azimuth moved up by
`2*TMath::Pi()`, the constant of `TMath::Pi()` being the double nearest to it. -/
def AssoPhi (c : AssoCluster) : Double :=
  if Double.lt (Double.finite c.Phi) (Double.finite 0) then
    Double.add (Double.finite c.Phi) (Double.mul (Double.finite 2) (Double.ofRat TMath.Pi))
  else Double.finite c.Phi

/-- Lines 2146-2180 of `IsolationCut`: the cluster loop with loop variable `riso`; entry `jcl`
of the list is `Assoclust` (`none` for a null pointer). The list holds the slots the loop
reads. The literals `1.39`, `3.265` and `0.4` (`CutConeR`) are the doubles nearest to them. -/
def IsolationCut_loop (MatchPhi MatchEta MatchclE : ℚ) :
    List (Option AssoCluster) → Double → Double
  | [], riso => riso
  | none :: rest, riso => IsolationCut_loop MatchPhi MatchEta MatchclE rest riso
  | some c :: rest, riso =>
      if !c.IsEMCAL then IsolationCut_loop MatchPhi MatchEta MatchclE rest riso
      else
        let AssoEta := Double.finite c.Eta
        let AssoclE := Double.finite c.E
        if Double.eq AssoclE (Double.finite MatchclE)
            && Double.eq (AssoPhi c) (Double.finite MatchPhi)
            && Double.eq AssoEta (Double.finite MatchEta) then
          IsolationCut_loop MatchPhi MatchEta MatchclE rest riso
        else
          let fClsTypeEMC : Bool :=
            Double.lt (Double.ofRat 1.39) (AssoPhi c) && Double.lt (AssoPhi c) (Double.ofRat 3.265)
          if !fClsTypeEMC then IsolationCut_loop MatchPhi MatchEta MatchclE rest riso
          else
            let ConeR := Double.sqrt (Double.add
              (Double.pow2 (Double.sub (AssoPhi c) (Double.finite MatchPhi)))
              (Double.pow2 (Double.sub AssoEta (Double.finite MatchEta))))
            if Double.lt (Double.ofRat 0.4) ConeR then
              IsolationCut_loop MatchPhi MatchEta MatchclE rest riso
            else IsolationCut_loop MatchPhi MatchEta MatchclE rest (Double.add riso AssoclE)

/-- `AliAnalysisHFjetTagHFE::IsolationCut(itrack, track, TrackPt, MatchPhi, MatchEta, MatchclE)`
(lines 2129-2185); the arguments `itrack`, `track` and `TrackPt` are not read by the body.
`fCaloClusters` lists the slots of the array (`none` for an empty slot, for which `At(jcl)` is
null). The loop bound `NclustIso` is `fCaloClusters->GetEntries()`, the number of non-empty
slots, and the loop reads the slots `0 .. NclustIso-1`. The result is `none` when `MatchclE` is
zero: the quotient of line 2182 is then an infinity or NaN, depending on the sign of the
zero. -/
def IsolationCut (MatchPhi MatchEta MatchclE : ℚ) (fCaloClusters : List (Option AssoCluster)) :
    Option Double :=
  let NclustIso : Nat := (fCaloClusters.filter (fun slot => slot.isSome)).length
  let riso : Double :=
    IsolationCut_loop MatchPhi MatchEta MatchclE (fCaloClusters.take NclustIso) (Double.finite 0)
  if MatchclE = 0 then none else some (Double.divFinite riso MatchclE)

/-- The selection of `IsolationCut` in the words of the specification, in exact arithmetic and
with the azimuth taken in `[0, 2 pi)`: an EMCAL cluster, not equal to the matched one in energy,
phi and eta, at `1.39 < phi < 3.265`, within cone distance `sqrt(dphi^2 + deta^2) <= 0.4`. -/
def specInCone (MatchPhi MatchEta MatchclE : ℚ) (c : AssoCluster) : Bool :=
  let phi : ℚ := if c.Phi < 0 then c.Phi + 2 * TMath.Pi else c.Phi
  c.IsEMCAL &&
  !(decide (c.E = MatchclE) && decide (phi = MatchPhi) && decide (c.Eta = MatchEta)) &&
  (decide (1.39 < phi) && decide (phi < 3.265)) &&
  decide ((phi - MatchPhi) ^ 2 + (c.Eta - MatchEta) ^ 2 ≤ 0.4 ^ 2)

/-- The value of `IsolationCut` in the words of the specification: the sum of the energies of
all clusters of the array selected by `specInCone`, divided by the matched energy. -/
def specIsolationCut (MatchPhi MatchEta MatchclE : ℚ)
    (fCaloClusters : List (Option AssoCluster)) : ℚ :=
  (((fCaloClusters.filterMap id).filter (specInCone MatchPhi MatchEta MatchclE)).map
    (fun c => c.E)).sum / MatchclE

/-- The double nearest to `2 pi`. -/
def twoPi : ℚ := 884279719003555 / 140737488355328

/-- The azimuth of a cluster in the words of the corrected statement C18: the azimuth of the
cluster position, a negative one increased by the double `twoPi` (the sum rounded). -/
def computedPhi (c : AssoCluster) : Double :=
  if c.Phi < 0 then Double.add (Double.finite c.Phi) (Double.finite twoPi)
  else Double.finite c.Phi

/-- The computed cone distance in the words of the corrected statement C18:
`sqrt(dphi^2 + deta^2)` with the two differences to the matched position, their squares, the
sum and the root each rounded to the nearest double. -/
def computedConeR (MatchPhi MatchEta : ℚ) (c : AssoCluster) : Double :=
  let dphi := Double.sub (computedPhi c) (Double.finite MatchPhi)
  let deta := Double.sub (Double.finite c.Eta) (Double.finite MatchEta)
  Double.sqrt (Double.add (Double.pow2 dphi) (Double.pow2 deta))

/-- The selection of the corrected statement C18, written from its words: an EMCAL cluster, not
equal to the matched one in energy, phi and eta, at `1.39 < phi < 3.265`, within the computed
cone distance `sqrt(dphi^2 + deta^2) <= 0.4`; `1.39`, `3.265` and `0.4` are the doubles nearest
to these numbers. -/
def computedInCone (MatchPhi MatchEta MatchclE : ℚ) (c : AssoCluster) : Bool :=
  c.IsEMCAL &&
  !(decide (c.E = MatchclE) && Double.eq (computedPhi c) (Double.finite MatchPhi) &&
    decide (c.Eta = MatchEta)) &&
  (Double.lt (Double.ofRat 1.39) (computedPhi c) &&
    Double.lt (computedPhi c) (Double.ofRat 3.265)) &&
  Double.le (computedConeR MatchPhi MatchEta c) (Double.ofRat 0.4)

/-- The value of the corrected statement C18, written from its words: the running sum of the energies of
the clusters of the list selected by `computedInCone`, divided in `double` by the matched
energy (different from zero). -/
def computedIsolation (MatchPhi MatchEta MatchclE : ℚ) (clusters : List AssoCluster) : Double :=
  Double.divFinite
    (runningSum ((clusters.filter (computedInCone MatchPhi MatchEta MatchclE)).map
      (fun c => c.E)))
    MatchclE

/-- Lines 1688-1709 of `ReduceJetEnergyScale`: the constituent loop with loop variable
`JetpTreduce`, a `double` to which `jetcont->Pt()` is added in `double` arithmetic.
`Uniform n` is the value of the call number `n` (counted from 0) of
`generator->Uniform(0.0,1.0)`; `nDraws` is the number of calls made so far. One value is drawn
for every non-null constituent. -/
def ReduceJetEnergyScale_loop (epT : Fin 3 → ℚ) (effval : ℚ) (Uniform : Nat → ℚ) :
    List (Option AliVParticle) → Nat → Double → Double
  | [], _, JetpTreduce => JetpTreduce
  | none :: rest, nDraws, JetpTreduce =>
      ReduceJetEnergyScale_loop epT effval Uniform rest nDraws JetpTreduce
  | some jetcont :: rest, nDraws, JetpTreduce =>
      let trkeff := Uniform nDraws
      if Double.lt (Rmatch epT jetcont) (Double.ofRat 1e-8) then
        ReduceJetEnergyScale_loop epT effval Uniform rest (nDraws + 1)
          (Double.add JetpTreduce (Double.finite jetcont.Pt))
      else if trkeff > effval then
        ReduceJetEnergyScale_loop epT effval Uniform rest (nDraws + 1)
          (Double.add JetpTreduce (Double.finite jetcont.Pt))
      else
        ReduceJetEnergyScale_loop epT effval Uniform rest (nDraws + 1) JetpTreduce

/-- `AliAnalysisHFjetTagHFE::ReduceJetEnergyScale(jetC, epT, effval)` (lines 1684-1713), the
random generator being the stream `Uniform` of its successive values. -/
def ReduceJetEnergyScale (jetC : AliEmcalJet) (epT : Fin 3 → ℚ) (effval : ℚ)
    (Uniform : Nat → ℚ) : Double :=
  ReduceJetEnergyScale_loop epT effval Uniform jetC 0 (Double.finite 0)

/-- The non-null constituents of a jet, each with the uniform draw made for it: the `k`-th
non-null constituent gets draw number `k` (counted from `nDraws`). -/
def constituentsWithDraws (Uniform : Nat → ℚ) :
    List (Option AliVParticle) → Nat → List (AliVParticle × ℚ)
  | [], _ => []
  | none :: rest, nDraws => constituentsWithDraws Uniform rest nDraws
  | some c :: rest, nDraws => (c, Uniform nDraws) :: constituentsWithDraws Uniform rest (nDraws + 1)

/-- The constituents kept by the corrected statement C19, written from its words: the non-null
constituents with their draws whose computed distance to the electron momentum is below the
double `1e-8` or whose draw is greater than `effval`. -/
def keptConstituents (epT : Fin 3 → ℚ) (effval : ℚ) (Uniform : Nat → ℚ) (jetC : AliEmcalJet) :
    List (AliVParticle × ℚ) :=
  (constituentsWithDraws Uniform jetC 0).filter (fun cd =>
    Double.lt (computedDistance epT cd.1) (Double.ofRat 1e-8) || decide (cd.2 > effval))

/-- A vertex of the AOD event as read by the kink search of `Run`: `isKink` is
`GetType()==AliAODVertex::kKink`, and `Parent` is `GetID()` of the track `GetParent()`
(`none` when `GetParent()` is null). -/
structure AliAODVertex where
  isKink : Bool
  Parent : Option Int
deriving DecidableEq

/-- Lines 1149-1159 of `Run`: the loop over the vertices (`none` for a null `aodvertex`) that
fills `listofmotherkink`; the array is of `Double_t`, so the integer ID is stored converted.
The list argument holds the entries `0 .. numberofmotherkink-1` written so far. -/
def Run_kinkMothers : List (Option AliAODVertex) → List ℚ → List ℚ
  | [], listofmotherkink => listofmotherkink
  | none :: rest, listofmotherkink => Run_kinkMothers rest listofmotherkink
  | some aodvertex :: rest, listofmotherkink =>
      if aodvertex.isKink then
        match aodvertex.Parent with
        | none => Run_kinkMothers rest listofmotherkink
        | some idmother => Run_kinkMothers rest (listofmotherkink ++ [(idmother : ℚ)])
      else Run_kinkMothers rest listofmotherkink

/-- Lines 1251-1257 of `Run`: the loop over `listofmotherkink` with loop variable
`kinkmotherpass`; `ID` is `track->GetID()`, converted for the comparison with a `Double_t`. -/
def Run_kinkLoop (ID : Int) : List ℚ → Bool → Bool
  | [], kinkmotherpass => kinkmotherpass
  | mother :: rest, kinkmotherpass =>
      if (ID : ℚ) = mother then Run_kinkLoop ID rest false
      else Run_kinkLoop ID rest kinkmotherpass

/-- Lines 1144-1159 and 1251-1258 of `Run`: the track with `GetID() == ID` is rejected by the
kink cut (`if(!kinkmotherpass) continue`). -/
def Run_kinkRejected (vertices : List (Option AliAODVertex)) (ID : Int) : Bool :=
  !Run_kinkLoop ID (Run_kinkMothers vertices []) true

end AliAnalysisHFjetTagHFE

/-! ## AliAnalysisDecorrTask -/

namespace AliAnalysisDecorrTask

/-- The data members of `AliAnalysisDecorrTask` written by its setters (lines 29-61 of the
header), apart from `fVecCorrTask`. -/
structure Settings where
  fSampling : Bool
  fNumSamples : Int
  fFillQA : Bool
  fTrigger : Nat
  fEventRejectAddPileUp : Bool
  fCentEstimator : String
  fFilterBit : Nat
  fPVtxCutZ : ℚ
  fCutChargedDCAzMax : ℚ
  fCutChargedDCAxyMax : ℚ
  fCutChargedNumTPCclsMin : Nat
  fCutChargedTrackFilterBit : Nat
  fPOIsPtmin : ℚ
  fPOIsPtmax : ℚ
  fRFPsPtMin : ℚ
  fRFPsPtMax : ℚ
  fAbsEtaMax : ℚ
  fEtaBinNum : Int
  fPhiBinNum : Int
  dEtaGap : ℚ
  fUseWeights3D : Bool
  fFillWeights : Bool
  bHasGap : Bool
  bRef : Bool
  bDiff : Bool
  bPtB : Bool
deriving DecidableEq

/-- The state of an `AliAnalysisDecorrTask` seen by its setters: the vector `fVecCorrTask` of
registered correlation tasks and the other settings. `CorrTask` is the class
`AliUniFlowCorrTask`, declared in a header of its own. -/
structure Task (CorrTask : Type) where
  fVecCorrTask : List CorrTask
  settings : Settings

/-- `AliAnalysisDecorrTask::AddCorr(harms, gaps, doRFPs, doPOIs)` (line 46 of the header):
`fVecCorrTask.push_back(new AliUniFlowCorrTask(doRFPs, doPOIs, harms, gaps))`. The constructor
of `AliUniFlowCorrTask` is the parameter `newCorrTask`. -/
def AddCorr {CorrTask : Type} (newCorrTask : Bool → Bool → List Int → List ℚ → CorrTask)
    (t : Task CorrTask) (harms : List Int) (gaps : List ℚ) (doRFPs doPOIs : Bool) :
    Task CorrTask :=
  { fVecCorrTask := t.fVecCorrTask ++ [newCorrTask doRFPs doPOIs harms gaps]
    settings := t.settings }

end AliAnalysisDecorrTask

/-! ## AliTRDonlineTrackletQA: the low-pt tests -/

namespace AliTRDonlineTrackletQA

end AliTRDonlineTrackletQA

/-! ## Concrete inputs -/

namespace AliAnalysisHFjetTagHFE

/-- Settings of an MC run with the E/p shift enabled. -/
def mcSettings : Settings :=
  { fmcData := true, iMCcorr := true, fmimSig := -1, fmimEop := 0.9, fmimM20 := 0.01,
    fmaxM20 := 0.35 }

/-- An EMCal cluster at azimuth 2 with energy 2 matched without residual. -/
def goodCluster : AliVCluster :=
  { IsEMCAL := true, Phi := 2, TrackDx := 0, TrackDz := 0, E := 2, M20 := 0.2 }

end AliAnalysisHFjetTagHFE

namespace AliTRDonlineTrackletQA

/-- A simulated tracklet (label 7) of detector 3. -/
def simTracklet3 : AliESDTrdTracklet :=
  { Label := 7, Detector := 3, BinY := 10, BinZ := 2, LocalY := 0, DyDx := 0 }

/-- A raw tracklet (label -2) of detector 3, three y-bins away from `simTracklet3`. -/
def rawTracklet3 : AliESDTrdTracklet :=
  { Label := -2, Detector := 3, BinY := 13, BinZ := 2, LocalY := 0, DyDx := 0 }

/-- An event with a null entry, one simulated and one raw tracklet. -/
def smallEvent : List (Option AliESDTrdTracklet) :=
  [some simTracklet3, none, some rawTracklet3]

/-- A simulated tracklet with label 0 in detector 1. -/
def simTrackletDet1 : AliESDTrdTracklet :=
  { Label := 0, Detector := 1, BinY := 0, BinZ := 0, LocalY := 0, DyDx := 0 }

/-- An event whose only tracklet is `simTrackletDet1`. -/
def oneSimEvent : List (Option AliESDTrdTracklet) := [some simTrackletDet1]

/-- A TRD track reference of particle 0 at local x = `x`, on the axis of sector 0. -/
def refAt (x : ℚ) : AliTrackReference :=
  { isTRD := true, Pt := 2, Label := 0, LocalX := x, LocalY := 0, Z := 0, Alpha := 0.1745 }

/-- A primary particle with two TRD track references, at x = 298 and x = 300. -/
def twoRefParticle : AliMCParticle :=
  { IsPhysicalPrimary := true, Pt := 2, TrackReferences := [refAt 298, refAt 300] }

/-- A primary particle with three TRD track references, at x = 298, 300 and 302. -/
def threeRefParticle : AliMCParticle :=
  { IsPhysicalPrimary := true, Pt := 2, TrackReferences := [refAt 298, refAt 300, refAt 302] }

end AliTRDonlineTrackletQA

namespace AliTRDonlineTrackletQA

/-- A TRD track reference of particle 0 at local x = `x` and local y = `y`. -/
def refAtXY (x y : ℚ) : AliTrackReference :=
  { isTRD := true, Pt := 2, Label := 0, LocalX := x, LocalY := y, Z := 0, Alpha := 0.1745 }

/-- A primary particle whose two TRD track references give the deflection length -6. -/
def steepParticle : AliMCParticle :=
  { IsPhysicalPrimary := true, Pt := 2, TrackReferences := [refAtXY 298 0, refAtXY 300 (-4)] }

end AliTRDonlineTrackletQA

namespace AliAnalysisHFjetTagHFE

/-- A partner track that passes all partner cuts, with positive charge and pair mass 0.05. -/
def goodPartner : AssoTrack :=
  { TestFilterMaskTPCOnly := true, TPCNcls := 100, ITSrefit := true, TPCrefit := true,
    Pt := 1, Eta := 0, nsigma := 0, Charge := 1, recgNDF := 1, recgChi2 := 1,
    recgMass := 0.05 }

end AliAnalysisHFjetTagHFE

namespace AliAnalysisHFjetTagHFE

/-- An array of three slots, the middle one empty: the matched cluster (energy 2 at phi 2,
eta 0), an empty slot, and a neighbour of energy 1 inside the cone. -/
def holeClusters : List (Option AssoCluster) :=
  [some { IsEMCAL := true, Phi := 2, Eta := 0, E := 2 },
   none,
   some { IsEMCAL := true, Phi := 17 / 8, Eta := 1 / 8, E := 1 }]

/-- An array of two clusters without empty slot: the matched cluster (energy 2 at phi 2,
eta 0) and a cluster of energy 1 at phi 2.25 and eta `0x1.3fbe701157609p-2`, whose distance to
the matched position is above 0.4 by less than the rounding of the computation. -/
def rimClusters : List (Option AssoCluster) :=
  [some { IsEMCAL := true, Phi := 2, Eta := 0, E := 2 },
   some { IsEMCAL := true, Phi := 9 / 4, Eta := 5624994131703305 / 18014398509481984, E := 1 }]

/-- An array of two clusters inside the cone around phi 2, eta 0, with the energies `0.1` and
`0.2` (the doubles nearest to them). -/
def tenthClusters : List (Option AssoCluster) :=
  [some { IsEMCAL := true, Phi := 2, Eta := 0, E := 3602879701896397 / 36028797018963968 },
   some { IsEMCAL := true, Phi := 2, Eta := 1 / 8, E := 3602879701896397 / 18014398509481984 }]

/-- A jet of two constituents with pt `0.1` and `0.2` (the doubles nearest to them). -/
def tenthJet : AliEmcalJet :=
  [some { Px := 0, Py := 3602879701896397 / 36028797018963968, Pz := 0,
          Pt := 3602879701896397 / 36028797018963968 },
   some { Px := 0, Py := 3602879701896397 / 18014398509481984, Pz := 0,
          Pt := 3602879701896397 / 18014398509481984 }]

/-- A jet constituent with momentum (1, 0, 0) and pt 1. -/
def unitConstituent : AliVParticle := { Px := 1, Py := 0, Pz := 0, Pt := 1 }

/-- An electron momentum next to `unitConstituent`: the doubles `0x1.0000001c9c380p+0` and
`0x1.004419268cd43p-27`, and zero. -/
def epTnearCut : Fin 3 → ℚ :=
  ![35184372323207 / 35184372088832, 4508279303097667 / 604462909807314587353088, 0]

/-- An electron momentum next to `unitConstituent`, at a distance not below `1e-8`: the
doubles `0x1.0000002106584p+0`, `0x1.9434c0ef4bfb9p-28` and `0x1.5863f38a4b901p-29`. -/
def epTpastCut : Fin 3 → ℚ :=
  ![1125899915499873 / 1125899906842624, 7110868365262777 / 1208925819614629174706176,
    6058580602304769 / 2417851639229258349412352]

/-- A jet of two constituents (pt 1 and pt 2) with a null entry between them. -/
def smallJet : AliEmcalJet :=
  [some { Px := 1, Py := 0, Pz := 0, Pt := 1 }, none, some { Px := 0, Py := 2, Pz := 0, Pt := 2 }]

end AliAnalysisHFjetTagHFE

/-! ## Theorems -/

namespace AliAnalysisHFjetTagHFE

theorem abs_spec (x : Int) (hlo : -2147483648 ≤ x) (hhi : x ≤ 2147483647) :
    (x ≠ -2147483648 ∧ abs x = |x|) ∨ (x = -2147483648 ∧ abs x = -2147483648) := by
  unfold abs wrapInt
  rcases abs_cases x with ⟨h1, h2⟩ | ⟨h1, h2⟩ <;> split <;> omega

/-- C8: for every `Int_t` value `pdg`, `isHeavyFlavour(pdg)` is true exactly when `|pdg|` is one
of the charm codes 411, 413, 421, 423, 431 or one of the beauty codes 511, 513, 521, 523, 531;
and when `-pdg` is representable, `isHeavyFlavour(-pdg) = isHeavyFlavour(pdg)`. -/
theorem isHeavyFlavour_iff (pdg : Int) (hlo : -2147483648 ≤ pdg) (hhi : pdg ≤ 2147483647) :
    (isHeavyFlavour pdg = true ↔
      (|pdg| = 411 ∨ |pdg| = 413 ∨ |pdg| = 421 ∨ |pdg| = 423 ∨ |pdg| = 431) ∨
      (|pdg| = 511 ∨ |pdg| = 513 ∨ |pdg| = 521 ∨ |pdg| = 523 ∨ |pdg| = 531))
    ∧ (-2147483648 ≤ -pdg → -pdg ≤ 2147483647 →
        isHeavyFlavour (-pdg) = isHeavyFlavour pdg) := by
  have key : ∀ x : Int, -2147483648 ≤ x → x ≤ 2147483647 →
      (isHeavyFlavour x = true ↔
        (|x| = 411 ∨ |x| = 413 ∨ |x| = 421 ∨ |x| = 423 ∨ |x| = 431) ∨
        (|x| = 511 ∨ |x| = 513 ∨ |x| = 521 ∨ |x| = 523 ∨ |x| = 531)) := by
    intro x h1 h2
    simp only [isHeavyFlavour, Bool.or_eq_true, beq_iff_eq, Bool.if_true_left,
      Bool.or_false, ite_eq_left_iff, Bool.not_eq_true, decide_eq_true_eq]
    rcases abs_spec x h1 h2 with ⟨_, e⟩ | ⟨e1, e⟩ <;> rw [e]
    · tauto
    · subst e1
      rw [show |(-2147483648 : Int)| = 2147483648 from rfl]
      omega
  refine ⟨key pdg hlo hhi, ?_⟩
  intro h1 h2
  rw [Bool.eq_iff_iff, key pdg hlo hhi, key (-pdg) h1 h2, abs_neg]

/-- Witness for C8 at the D+ meson code 411. -/
theorem isHeavyFlavour_iff_witness :
    (isHeavyFlavour 411 = true ↔
      (|(411 : Int)| = 411 ∨ |(411 : Int)| = 413 ∨ |(411 : Int)| = 421 ∨ |(411 : Int)| = 423
        ∨ |(411 : Int)| = 431) ∨
      (|(411 : Int)| = 511 ∨ |(411 : Int)| = 513 ∨ |(411 : Int)| = 521 ∨ |(411 : Int)| = 523
        ∨ |(411 : Int)| = 531))
    ∧ (-2147483648 ≤ -(411 : Int) → -(411 : Int) ≤ 2147483647 →
        isHeavyFlavour (-411) = isHeavyFlavour 411) :=
  isHeavyFlavour_iff 411 (by decide) (by decide)

/-- C9: for every `Int_t` value `pdg`, `isPhotonic(pdg)` is true exactly when `|pdg|` is 22
(photon), 111 (pi0) or 221 (eta). -/
theorem isPhotonic_iff (pdg : Int) (hlo : -2147483648 ≤ pdg) (hhi : pdg ≤ 2147483647) :
    isPhotonic pdg = true ↔ |pdg| = 22 ∨ |pdg| = 111 ∨ |pdg| = 221 := by
  simp only [isPhotonic, Bool.or_eq_true, beq_iff_eq, Bool.if_true_left,
    Bool.or_false, ite_eq_left_iff, Bool.not_eq_true, decide_eq_true_eq]
  rcases abs_spec pdg hlo hhi with ⟨_, e⟩ | ⟨e1, e⟩ <;> rw [e]
  · tauto
  · subst e1
    rw [show |(-2147483648 : Int)| = 2147483648 from rfl]
    omega

/-- Witness for C9 at the pi0 code with negative sign. -/
theorem isPhotonic_iff_witness :
    isPhotonic (-111) = true ↔ |(-111 : Int)| = 22 ∨ |(-111 : Int)| = 111 ∨ |(-111 : Int)| = 221 :=
  isPhotonic_iff (-111) (by decide) (by decide)


theorem TMath_Abs_eq (x : ℚ) : TMath.Abs x = |x| := by
  unfold TMath.Abs
  split
  · rw [abs_of_neg (by assumption)]
  · rw [abs_of_nonneg (le_of_not_lt (by assumption))]

/-- C10: a track is accepted as an electron by the EMCal block of `Run` only if it has a
matched cluster, this cluster is an EMCal cluster (`IsEMCAL()`) and lies at
`1.39 < phi < 3.265` with track residuals `|dx| <= 0.05` and `|dz| <= 0.05`, its
TPC n-sigma satisfies `fmimSig <= nsigma <= 3`, its E/p satisfies `fmimEop < E/p < 1.3` and its
shower shape satisfies `fmimM20 < M20 < fmaxM20`, where E/p is the cluster energy over the track
momentum (`-1` when the momentum is not positive), increased by `0.04` when running on MC with
the correction enabled. -/
theorem Run_isElectron_only_if (s : Settings) (P fTPCnSigma : ℚ)
    (clustMatch : Option AliVCluster)
    (h : Run_isElectron s P fTPCnSigma clustMatch = true) :
    ∃ cl : AliVCluster, clustMatch = some cl ∧ cl.IsEMCAL = true ∧
      (1.39 < emcphi cl ∧ emcphi cl < 3.265) ∧
      (|cl.TrackDx| ≤ 0.05 ∧ |cl.TrackDz| ≤ 0.05) ∧
      (s.fmimSig ≤ fTPCnSigma ∧ fTPCnSigma ≤ 3) ∧
      (s.fmimEop < eop s cl.E P ∧ eop s cl.E P < 1.3) ∧
      (s.fmimM20 < cl.M20 ∧ cl.M20 < s.fmaxM20) ∧
      eop s cl.E P =
        (if 0 < P then cl.E / P else -1) +
          (if s.fmcData = true ∧ s.iMCcorr = true then 0.04 else 0) := by
  cases clustMatch with
  | none => simp [Run_isElectron] at h
  | some cl =>
    refine ⟨cl, rfl, ?_⟩
    simp only [Run_isElectron, TMath_Abs_eq] at h
    split_ifs at h with h1 h2 h3 h4 h5 h6
    simp only [Bool.not_eq_true, Bool.not_eq_false, Bool.and_eq_true, Bool.or_eq_true,
      decide_eq_true_eq, not_and, not_or, not_lt, gt_iff_lt, Bool.not_eq_eq_eq_not,
      Bool.not_true, Bool.and_eq_false_imp, decide_eq_false_iff_not, Bool.not_false] at h1 h2 h3 h4 h5 h6
    refine ⟨h1, ?_, ⟨h3.1, h3.2⟩, ⟨h5.1, h5.2⟩, ⟨h6.1.1.1, h6.1.1.2⟩, ⟨h6.2, h6.1.2⟩, ?_⟩
    · rw [Classical.not_imp, not_le] at h2
      exact h2
    · unfold eop
      by_cases hP : 0 < P <;> by_cases hm : s.fmcData = true <;> by_cases hc : s.iMCcorr = true <;>
        simp [hP, hm, hc] <;> norm_num

/-- Witness for C10: an MC track of momentum 2 with n-sigma 0 on `goodCluster`. -/
theorem Run_isElectron_only_if_witness :
    Run_isElectron mcSettings 2 0 (some goodCluster) = true ∧
    ∃ cl : AliVCluster, some goodCluster = some cl ∧ cl.IsEMCAL = true ∧
      (1.39 < emcphi cl ∧ emcphi cl < 3.265) ∧
      (|cl.TrackDx| ≤ 0.05 ∧ |cl.TrackDz| ≤ 0.05) ∧
      (mcSettings.fmimSig ≤ (0 : ℚ) ∧ (0 : ℚ) ≤ 3) ∧
      (mcSettings.fmimEop < eop mcSettings cl.E 2 ∧ eop mcSettings cl.E 2 < 1.3) ∧
      (mcSettings.fmimM20 < cl.M20 ∧ cl.M20 < mcSettings.fmaxM20) ∧
      eop mcSettings cl.E 2 =
        (if (0 : ℚ) < 2 then cl.E / 2 else -1) +
          (if mcSettings.fmcData = true ∧ mcSettings.iMCcorr = true then 0.04 else 0) :=
  ⟨by norm_num [Run_isElectron, emcphi, eop, TMath.Abs, mcSettings, goodCluster],
   Run_isElectron_only_if mcSettings 2 0 (some goodCluster)
    (by norm_num [Run_isElectron, emcphi, eop, TMath.Abs, mcSettings, goodCluster])⟩

end AliAnalysisHFjetTagHFE

namespace AliTRDonlineTrackletQA

theorem readTracklets_sim_mem (esd : List (Option AliESDTrdTracklet))
    (st : TListArray × TListArray) (d : Int) (t : AliESDTrdTracklet) :
    t ∈ (readTracklets esd st).1 d ↔
      t ∈ st.1 d ∨ (some t ∈ esd ∧ t.Label ≥ -1 ∧ t.Detector > -1 ∧ t.Detector = d) := by
  induction esd generalizing st with
  | nil => simp [readTracklets]
  | cons o rest ih =>
    obtain ⟨sim, raw⟩ := st
    cases o with
    | none => simp [readTracklets, ih]
    | some u =>
      simp only [readTracklets]
      split_ifs with h1 h2 h2 <;>
        simp only [ih, TListArray.Add, List.mem_cons, Option.some.injEq]
      · by_cases hd : d = u.Detector
        · simp only [hd, if_true, List.mem_append, List.mem_singleton]
          constructor
          · rintro ((h | h) | h)
            · exact Or.inl h
            · subst h; exact Or.inr ⟨Or.inl rfl, h1, h2, rfl⟩
            · exact Or.inr ⟨Or.inr h.1, h.2⟩
          · rintro (h | ⟨h | h, h3⟩)
            · exact Or.inl (Or.inl h)
            · exact Or.inl (Or.inr h)
            · exact Or.inr ⟨h, h3⟩
        · simp only [hd, if_false]
          constructor
          · rintro (h | h)
            · exact Or.inl h
            · exact Or.inr ⟨Or.inr h.1, h.2⟩
          · rintro (h | ⟨h | h, h3⟩)
            · exact Or.inl h
            · subst h; exact absurd h3.2.2.symm hd
            · exact Or.inr ⟨h, h3⟩
      all_goals
        constructor
        · rintro (h | h)
          · exact Or.inl h
          · exact Or.inr ⟨Or.inr h.1, h.2⟩
        · rintro (h | ⟨h | h, h3⟩)
          · exact Or.inl h
          · subst h; omega
          · exact Or.inr ⟨h, h3⟩

theorem readTracklets_raw_mem (esd : List (Option AliESDTrdTracklet))
    (st : TListArray × TListArray) (d : Int) (t : AliESDTrdTracklet) :
    t ∈ (readTracklets esd st).2 d ↔
      t ∈ st.2 d ∨ (some t ∈ esd ∧ t.Label < -1 ∧ t.Detector > -1 ∧ t.Detector = d) := by
  induction esd generalizing st with
  | nil => simp [readTracklets]
  | cons o rest ih =>
    obtain ⟨sim, raw⟩ := st
    cases o with
    | none => simp [readTracklets, ih]
    | some u =>
      simp only [readTracklets]
      split_ifs with h1 h2 h2 <;>
        simp only [ih, TListArray.Add, List.mem_cons, Option.some.injEq]
      rotate_left 2
      · by_cases hd : d = u.Detector
        · simp only [hd, if_true, List.mem_append, List.mem_singleton]
          constructor
          · rintro ((h | h) | h)
            · exact Or.inl h
            · subst h; exact Or.inr ⟨Or.inl rfl, not_le.1 h1, h2, rfl⟩
            · exact Or.inr ⟨Or.inr h.1, h.2⟩
          · rintro (h | ⟨h | h, h3⟩)
            · exact Or.inl (Or.inl h)
            · exact Or.inl (Or.inr h)
            · exact Or.inr ⟨h, h3⟩
        · simp only [hd, if_false]
          constructor
          · rintro (h | h)
            · exact Or.inl h
            · exact Or.inr ⟨Or.inr h.1, h.2⟩
          · rintro (h | ⟨h | h, h3⟩)
            · exact Or.inl h
            · subst h; exact absurd h3.2.2.symm hd
            · exact Or.inr ⟨h, h3⟩
      all_goals
        constructor
        · rintro (h | h)
          · exact Or.inl h
          · exact Or.inr ⟨Or.inr h.1, h.2⟩
        · rintro (h | ⟨h | h, h3⟩)
          · exact Or.inl h
          · subst h; omega
          · exact Or.inr ⟨h, h3⟩

theorem mem_trackletsSim (esd : List (Option AliESDTrdTracklet)) (d : Int)
    (t : AliESDTrdTracklet) :
    t ∈ trackletsSim esd d ↔ some t ∈ esd ∧ t.Label ≥ -1 ∧ t.Detector > -1 ∧ t.Detector = d := by
  unfold trackletsSim
  rw [readTracklets_sim_mem]
  simp

theorem mem_trackletsRaw (esd : List (Option AliESDTrdTracklet)) (d : Int)
    (t : AliESDTrdTracklet) :
    t ∈ trackletsRaw esd d ↔ some t ∈ esd ∧ t.Label < -1 ∧ t.Detector > -1 ∧ t.Detector = d := by
  unfold trackletsRaw
  rw [readTracklets_raw_mem]
  simp

theorem detectorsInRange_smallEvent : detectorsInRange smallEvent := by
  intro t ht
  simp only [smallEvent, List.mem_cons, Option.some.injEq, List.mem_singleton, reduceCtorEq,
    false_or, List.not_mem_nil, or_false] at ht
  rcases ht with h | h <;> subst h <;> decide

/-- C2: in `Exec` every non-null ESD tracklet (of an event whose detector numbers are below 540)
is put into the simulated list of its detector iff its label is `>= -1` and its detector number
is `> -1`, and into the raw list of its detector iff its label is `< -1` and its detector number
is `> -1`; it is in no simulated list and raw list at the same time. -/
theorem Exec_classifies_tracklet (esd : List (Option AliESDTrdTracklet))
    (hwf : detectorsInRange esd) (t : AliESDTrdTracklet) (ht : some t ∈ esd) :
    (t ∈ trackletsSim esd t.Detector ↔ t.Label ≥ -1 ∧ t.Detector > -1) ∧
    (t ∈ trackletsRaw esd t.Detector ↔ t.Label < -1 ∧ t.Detector > -1) ∧
    ¬ (∃ d e : Int, t ∈ trackletsSim esd d ∧ t ∈ trackletsRaw esd e) := by
  have _ := hwf
  refine ⟨?_, ?_, ?_⟩
  · rw [mem_trackletsSim]
    exact ⟨fun h => ⟨h.2.1, h.2.2.1⟩, fun h => ⟨ht, h.1, h.2, rfl⟩⟩
  · rw [mem_trackletsRaw]
    exact ⟨fun h => ⟨h.2.1, h.2.2.1⟩, fun h => ⟨ht, h.1, h.2, rfl⟩⟩
  · rintro ⟨d, e, h1, h2⟩
    rw [mem_trackletsSim] at h1
    rw [mem_trackletsRaw] at h2
    omega

/-- Witness for C2: the simulated tracklet of `smallEvent`. -/
theorem Exec_classifies_tracklet_witness :
    (detectorsInRange smallEvent ∧ some simTracklet3 ∈ smallEvent) ∧
    (simTracklet3 ∈ trackletsSim smallEvent simTracklet3.Detector ↔
      simTracklet3.Label ≥ -1 ∧ simTracklet3.Detector > -1) ∧
    (simTracklet3 ∈ trackletsRaw smallEvent simTracklet3.Detector ↔
      simTracklet3.Label < -1 ∧ simTracklet3.Detector > -1) ∧
    ¬ (∃ d e : Int, simTracklet3 ∈ trackletsSim smallEvent d ∧
        simTracklet3 ∈ trackletsRaw smallEvent e) :=
  ⟨⟨detectorsInRange_smallEvent, by simp [smallEvent]⟩,
   Exec_classifies_tracklet smallEvent detectorsInRange_smallEvent simTracklet3
    (by simp [smallEvent])⟩

theorem searchLoop_spec (raw : AliESDTrdTracklet) (l : List AliESDTrdTracklet) (i : Nat)
    (m : Option (Nat × AliESDTrdTracklet)) (y : Int)
    (hm : ∀ j s, m = some (j, s) → dBinY raw s ≤ y) :
    (searchLoop raw l i m y = none ∧ m = none ∧
        ∀ s ∈ l, raw.BinZ = s.BinZ → y < dBinY raw s) ∨
    (∃ j s, searchLoop raw l i m y = some (j, s) ∧ dBinY raw s ≤ y ∧
        (∀ t ∈ l, raw.BinZ = t.BinZ → dBinY raw s ≤ dBinY raw t) ∧
        (m = some (j, s) ∨ (i ≤ j ∧ l[j - i]? = some s ∧ raw.BinZ = s.BinZ))) := by
  induction l generalizing i m y with
  | nil =>
    cases m with
    | none => exact Or.inl ⟨rfl, rfl, by simp⟩
    | some p =>
      obtain ⟨j, s⟩ := p
      exact Or.inr ⟨j, s, rfl, hm j s rfl, by simp, Or.inl rfl⟩
  | cons a rest ih =>
    have shift : ∀ j s, i + 1 ≤ j → rest[j - (i + 1)]? = some s →
        i ≤ j ∧ (a :: rest)[j - i]? = some s := by
      intro j s hj hs
      refine ⟨by omega, ?_⟩
      have e : j - i = (j - (i + 1)) + 1 := by omega
      rw [e, List.getElem?_cons_succ]
      exact hs
    unfold searchLoop
    by_cases hz : raw.BinZ ≠ a.BinZ
    · rw [if_pos hz]
      rcases ih (i + 1) m y hm with ⟨h1, h2, h3⟩ | ⟨j, s, h1, h2, h3, h4⟩
      · refine Or.inl ⟨h1, h2, ?_⟩
        intro t ht hzt
        rcases List.mem_cons.1 ht with e | e
        · subst e; exact absurd hzt hz
        · exact h3 t e hzt
      · refine Or.inr ⟨j, s, h1, h2, ?_, ?_⟩
        · intro t ht hzt
          rcases List.mem_cons.1 ht with e | e
          · subst e; exact absurd hzt hz
          · exact h3 t e hzt
        · rcases h4 with h4 | ⟨h4, h5, h6⟩
          · exact Or.inl h4
          · exact Or.inr ⟨(shift j s h4 h5).1, (shift j s h4 h5).2, h6⟩
    · rw [if_neg hz]
      by_cases hy : dBinY raw a > y
      · rw [if_pos hy]
        rcases ih (i + 1) m y hm with ⟨h1, h2, h3⟩ | ⟨j, s, h1, h2, h3, h4⟩
        · refine Or.inl ⟨h1, h2, ?_⟩
          intro t ht hzt
          rcases List.mem_cons.1 ht with e | e
          · subst e; exact hy
          · exact h3 t e hzt
        · refine Or.inr ⟨j, s, h1, h2, ?_, ?_⟩
          · intro t ht hzt
            rcases List.mem_cons.1 ht with e | e
            · subst e; exact le_of_lt (lt_of_le_of_lt h2 hy)
            · exact h3 t e hzt
          · rcases h4 with h4 | ⟨h4, h5, h6⟩
            · exact Or.inl h4
            · exact Or.inr ⟨(shift j s h4 h5).1, (shift j s h4 h5).2, h6⟩
      · rw [if_neg hy]
        have hy2 : dBinY raw a ≤ y := not_lt.1 hy
        have hm2 : ∀ j s, some (i, a) = some (j, s) → dBinY raw s ≤ dBinY raw a := by
          intro j s e
          simp only [Option.some.injEq, Prod.mk.injEq] at e
          rw [← e.2]
        rcases ih (i + 1) (some (i, a)) (dBinY raw a) hm2 with
          ⟨_, h2, _⟩ | ⟨j, s, h1, h2, h3, h4⟩
        · exact absurd h2 (by simp)
        · refine Or.inr ⟨j, s, h1, le_trans h2 hy2, ?_, ?_⟩
          · intro t ht hzt
            rcases List.mem_cons.1 ht with e | e
            · subst e; exact h2
            · exact h3 t e hzt
          · right
            rcases h4 with h4 | ⟨h4, h5, h6⟩
            · simp only [Option.some.injEq, Prod.mk.injEq] at h4
              obtain ⟨e1, e2⟩ := h4
              subst e1; subst e2
              exact ⟨le_refl _, by simp, not_not.1 hz⟩
            · exact ⟨(shift j s h4 h5).1, (shift j s h4 h5).2, h6⟩

theorem searchBestMatch_spec (raw : AliESDTrdTracklet) (sims : List AliESDTrdTracklet) :
    (searchBestMatch raw sims = none ∧
        ∀ s ∈ sims, raw.BinZ = s.BinZ → 100 < dBinY raw s) ∨
    (∃ j s, searchBestMatch raw sims = some (j, s) ∧ sims[j]? = some s ∧
        raw.BinZ = s.BinZ ∧ dBinY raw s ≤ 100 ∧
        ∀ t ∈ sims, raw.BinZ = t.BinZ → dBinY raw s ≤ dBinY raw t) := by
  unfold searchBestMatch
  rcases searchLoop_spec raw sims 0 none 100 (by simp) with
    ⟨h1, _, h3⟩ | ⟨j, s, h1, h2, h3, h4⟩
  · exact Or.inl ⟨h1, h3⟩
  · rcases h4 with h4 | ⟨_, h5, h6⟩
    · exact absurd h4 (by simp)
    · exact Or.inr ⟨j, s, h1, by simpa using h5, h6, h2, h3⟩

theorem matchRaw_cases (st : MatchState) (raw : AliESDTrdTracklet) :
    (∃ i sim, searchBestMatch raw st.sims = some (i, sim) ∧
        st.sims[i]? = some sim ∧
        raw.BinZ = sim.BinZ ∧
        |raw.BinY - sim.BinY| ≤ 100 ∧
        (∀ s ∈ st.sims, raw.BinZ = s.BinZ →
          |raw.BinY - sim.BinY| ≤ |raw.BinY - s.BinY|) ∧
        matchRaw st raw =
          { sims := st.sims.eraseIdx i
            matched := st.matched ++ [(raw, sim)]
            noMatchRaw := st.noMatchRaw }) ∨
    (searchBestMatch raw st.sims = none ∧
        (∀ s ∈ st.sims, raw.BinZ = s.BinZ → 100 < |raw.BinY - s.BinY|) ∧
        matchRaw st raw =
          { sims := st.sims
            matched := st.matched
            noMatchRaw := st.noMatchRaw ++ [raw] }) := by
  rcases searchBestMatch_spec raw st.sims with ⟨h1, h2⟩ | ⟨j, s, h1, h2, h3, h4, h5⟩
  · refine Or.inr ⟨h1, h2, ?_⟩
    unfold matchRaw
    rw [h1]
  · refine Or.inl ⟨j, s, h1, h2, h3, h4, h5, ?_⟩
    unfold matchRaw
    rw [h1]

/-- C4: for every raw tracklet and every current simulated list of its detector, the search
either selects a tracklet of the list with the same pad-row bin, within 100 y-bins, whose
`|binY_raw - binY_sim|` is minimal among the tracklets of the list with the same pad-row bin
(and this tracklet is recorded as the match and taken out of the list), or it selects nothing,
the raw tracklet is stored as unmatched, and no tracklet of the list with the same pad-row
bin lies within 100 y-bins. -/
theorem matchRaw_selects_best_match (st : MatchState) (raw : AliESDTrdTracklet) :
    (∃ i sim, searchBestMatch raw st.sims = some (i, sim) ∧
        st.sims[i]? = some sim ∧
        raw.BinZ = sim.BinZ ∧
        |raw.BinY - sim.BinY| ≤ 100 ∧
        (∀ s ∈ st.sims, raw.BinZ = s.BinZ →
          |raw.BinY - sim.BinY| ≤ |raw.BinY - s.BinY|) ∧
        matchRaw st raw =
          { sims := st.sims.eraseIdx i
            matched := st.matched ++ [(raw, sim)]
            noMatchRaw := st.noMatchRaw }) ∨
    (searchBestMatch raw st.sims = none ∧
        (∀ s ∈ st.sims, raw.BinZ = s.BinZ → 100 < |raw.BinY - s.BinY|) ∧
        matchRaw st raw =
          { sims := st.sims
            matched := st.matched
            noMatchRaw := st.noMatchRaw ++ [raw] }) :=
  matchRaw_cases st raw

theorem perm_cons_eraseIdx {α : Type} (l : List α) (i : Nat) (a : α) (h : l[i]? = some a) :
    l.Perm (a :: l.eraseIdx i) := by
  induction l generalizing i with
  | nil => simp at h
  | cons b rest ih =>
    cases i with
    | zero =>
      simp only [List.getElem?_cons_zero, Option.some.injEq] at h
      subst h
      simp
    | succ k =>
      simp only [List.getElem?_cons_succ] at h
      simp only [List.eraseIdx_cons_succ]
      exact (List.Perm.cons b (ih k h)).trans (List.Perm.swap a b _)

theorem matchLoop_matched_spec (raws : List AliESDTrdTracklet) (st : MatchState)
    (p : AliESDTrdTracklet × AliESDTrdTracklet) (hp : p ∈ (matchLoop raws st).matched) :
    p ∈ st.matched ∨
      (p.1 ∈ raws ∧ p.2 ∈ st.sims ∧ p.1.BinZ = p.2.BinZ ∧ |p.1.BinY - p.2.BinY| ≤ 100) := by
  induction raws generalizing st with
  | nil => exact Or.inl hp
  | cons r rest ih =>
    simp only [matchLoop] at hp
    rcases matchRaw_cases st r with ⟨i, sim, _, h2, h3, h4, _, h6⟩ | ⟨_, _, h3⟩
    · rcases ih (matchRaw st r) hp with h | ⟨k1, k2, k3, k4⟩
      · rw [h6] at h
        rcases List.mem_append.1 h with h | h
        · exact Or.inl h
        · simp only [List.mem_singleton] at h
          subst h
          exact Or.inr ⟨List.mem_cons_self _ _, List.getElem?_mem h2, h3, h4⟩
      · rw [h6] at k2
        exact Or.inr ⟨List.mem_cons_of_mem _ k1, List.mem_of_mem_eraseIdx k2, k3, k4⟩
    · rcases ih (matchRaw st r) hp with h | ⟨k1, k2, k3, k4⟩
      · rw [h3] at h
        exact Or.inl h
      · rw [h3] at k2
        exact Or.inr ⟨List.mem_cons_of_mem _ k1, k2, k3, k4⟩

theorem matchLoop_accounts (raws : List AliESDTrdTracklet) (st : MatchState) :
    (((matchLoop raws st).matched.map Prod.fst ++ (matchLoop raws st).noMatchRaw).Perm
        ((st.matched.map Prod.fst ++ st.noMatchRaw) ++ raws)) ∧
    (((matchLoop raws st).matched.map Prod.snd ++ (matchLoop raws st).sims).Perm
        (st.matched.map Prod.snd ++ st.sims)) := by
  induction raws generalizing st with
  | nil => simp [matchLoop]
  | cons r rest ih =>
    simp only [matchLoop]
    obtain ⟨ih1, ih2⟩ := ih (matchRaw st r)
    rcases matchRaw_cases st r with ⟨i, sim, _, h2, _, _, _, h6⟩ | ⟨_, _, h3⟩
    · rw [h6] at ih1 ih2 ⊢
      simp only [List.map_append, List.map_cons, List.map_nil, List.append_assoc,
        List.singleton_append] at ih1 ih2
      constructor
      · refine ih1.trans ?_
        simp only [List.append_assoc]
        refine List.Perm.append_left _ ?_
        exact List.perm_middle.symm
      · refine ih2.trans ?_
        refine List.Perm.append_left _ ?_
        exact (perm_cons_eraseIdx st.sims i sim h2).symm
    · rw [h3] at ih1 ih2 ⊢
      simp only [List.append_assoc, List.singleton_append] at ih1 ih2
      constructor
      · refine ih1.trans ?_
        simp only [List.append_assoc]
        exact List.Perm.refl _
      · exact ih2

theorem matchDetector_accounts (raws sims : List AliESDTrdTracklet) :
    ((matchDetector raws sims).matched.map Prod.fst ++ (matchDetector raws sims).noMatchRaw).Perm
        raws ∧
    ((matchDetector raws sims).matched.map Prod.snd ++ (matchDetector raws sims).sims).Perm
        sims ∧
    raws.length = (matchDetector raws sims).matched.length
        + (matchDetector raws sims).noMatchRaw.length ∧
    sims.length = (matchDetector raws sims).matched.length
        + (matchDetector raws sims).sims.length := by
  obtain ⟨h1, h2⟩ := matchLoop_accounts raws { sims := sims, matched := [], noMatchRaw := [] }
  simp only [List.map_nil, List.nil_append] at h1 h2
  refine ⟨h1, h2, ?_, ?_⟩
  · have := h1.length_eq
    simp only [List.length_append, List.length_map] at this
    exact this.symm
  · have := h2.length_eq
    simp only [List.length_append, List.length_map] at this
    exact this.symm

/-- C3: in the detector-wise comparison of `Exec` (for an event whose detector numbers are below
540), whenever a raw tracklet is matched to a simulated tracklet, both belong to the detector
being compared, have the same pad-row bin (`GetBinZ`) and their y bins (`GetBinY`) differ by at
most 100 in absolute value. -/
theorem Exec_match_pair_compatible (esd : List (Option AliESDTrdTracklet))
    (hwf : detectorsInRange esd) (iDetector : Fin 540) (raw sim : AliESDTrdTracklet)
    (h : (raw, sim) ∈ (Exec_match esd iDetector).matched) :
    (raw.Detector = (iDetector.val : Int) ∧ sim.Detector = (iDetector.val : Int)) ∧
    raw.Detector = sim.Detector ∧
    raw.BinZ = sim.BinZ ∧
    |raw.BinY - sim.BinY| ≤ 100 := by
  have _ := hwf
  unfold Exec_match matchDetector at h
  rcases matchLoop_matched_spec _ _ _ h with h | ⟨h1, h2, h3, h4⟩
  · simp at h
  · simp only at h1 h2 h3 h4
    rw [mem_trackletsRaw] at h1
    rw [mem_trackletsSim] at h2
    exact ⟨⟨h1.2.2.2, h2.2.2.2⟩, by rw [h1.2.2.2, h2.2.2.2], h3, h4⟩

/-- C5: the detector-wise comparison of `Exec` (for an event whose detector numbers are below
540) accounts for every listed tracklet exactly once: for each detector, the raw tracklets are,
up to order, the raw sides of the matched pairs together with the entries stored as unmatched
raw, and the simulated tracklets are the simulated sides of the matched pairs together with the
entries stored as unmatched simulated; so the number of raw tracklets is the number of matched
pairs plus the number of unmatched raw entries, and the number of simulated tracklets is the
number of matched pairs plus the number of unmatched simulated entries. -/
theorem Exec_match_accounts_once (esd : List (Option AliESDTrdTracklet))
    (hwf : detectorsInRange esd) (iDetector : Fin 540) :
    (((Exec_match esd iDetector).matched.map Prod.fst
        ++ (Exec_match esd iDetector).noMatchRaw).Perm (trackletsRaw esd (iDetector.val : Int))) ∧
    (((Exec_match esd iDetector).matched.map Prod.snd
        ++ (Exec_match esd iDetector).sims).Perm (trackletsSim esd (iDetector.val : Int))) ∧
    (trackletsRaw esd (iDetector.val : Int)).length =
      (Exec_match esd iDetector).matched.length + (Exec_match esd iDetector).noMatchRaw.length ∧
    (trackletsSim esd (iDetector.val : Int)).length =
      (Exec_match esd iDetector).matched.length + (Exec_match esd iDetector).sims.length := by
  have _ := hwf
  exact matchDetector_accounts _ _

/-- Witness for C3: the matched pair of `smallEvent` in detector 3. -/
theorem Exec_match_pair_compatible_witness :
    (detectorsInRange smallEvent ∧
      (rawTracklet3, simTracklet3) ∈ (Exec_match smallEvent 3).matched) ∧
    (rawTracklet3.Detector = ((3 : Fin 540).val : Int) ∧
      simTracklet3.Detector = ((3 : Fin 540).val : Int)) ∧
    rawTracklet3.Detector = simTracklet3.Detector ∧
    rawTracklet3.BinZ = simTracklet3.BinZ ∧
    |rawTracklet3.BinY - simTracklet3.BinY| ≤ 100 :=
  ⟨⟨detectorsInRange_smallEvent, by decide⟩,
   Exec_match_pair_compatible smallEvent detectorsInRange_smallEvent 3 rawTracklet3 simTracklet3
    (by decide)⟩

/-- Witness for C5: detector 3 of `smallEvent`. -/
theorem Exec_match_accounts_once_witness :
    detectorsInRange smallEvent ∧
    (((Exec_match smallEvent 3).matched.map Prod.fst
        ++ (Exec_match smallEvent 3).noMatchRaw).Perm
          (trackletsRaw smallEvent ((3 : Fin 540).val : Int))) ∧
    (((Exec_match smallEvent 3).matched.map Prod.snd
        ++ (Exec_match smallEvent 3).sims).Perm
          (trackletsSim smallEvent ((3 : Fin 540).val : Int))) ∧
    (trackletsRaw smallEvent ((3 : Fin 540).val : Int)).length =
      (Exec_match smallEvent 3).matched.length + (Exec_match smallEvent 3).noMatchRaw.length ∧
    (trackletsSim smallEvent ((3 : Fin 540).val : Int)).length =
      (Exec_match smallEvent 3).matched.length + (Exec_match smallEvent 3).sims.length :=
  ⟨detectorsInRange_smallEvent, Exec_match_accounts_once smallEvent detectorsInRange_smallEvent 3⟩

theorem tdiv_one_thirty : Int.tdiv 1 30 = 0 := by decide

/-- C6 (the code at a failing input): for the event whose only simulated tracklet sits in
detector 1, carries the label of the track reference at x = 300 and coincides with it in
position, `Exec` fills 0 into the tracklets-per-reference histogram, while the number of
simulated tracklets of the event matching that track reference is 1. -/
theorem Exec_trklPerRef_misses_detector1 :
    trklPerRefFills
        (Exec_MC 1 (fun _ => 300) (fun _ => 0) oneSimEvent (some [twoRefParticle])) = [0] ∧
    specTrackletsPerRef (fun _ => 300) (fun _ => 0) oneSimEvent (refAt 300) = 1 := by
  constructor
  · norm_num [trklPerRefFills, Exec_MC, mcLoop, trackRefLoop, countLoop, twoRefParticle, refAt,
      TMath.Abs, trackletsSimAfterMatch, matchDetector, matchLoop, trackletsSim, trackletsRaw,
      readTracklets, oneSimEvent, simTrackletDet1, TListArray.Add, List.filterMap_cons]
  · simp [specTrackletsPerRef, oneSimEvent, simTrackletDet1, refAt, List.filterMap_cons,
      List.filter_cons]

/-- C7 (the code at a failing input): for an MC particle with three TRD track references above
`fMinPt` within 5 cm of the tracklet, `PlotMC` fills the residual histograms and the tree. -/
theorem PlotMC_fills_with_three_refs :
    nearTrackRefs 1 300 threeRefParticle = 3 ∧
    PlotMC 1 (fun _ => 300) [threeRefParticle] simTrackletDet1 = some 0 := by
  constructor
  · norm_num [nearTrackRefs, threeRefParticle, refAt]
  · norm_num [PlotMC, PlotMC_refLoop, threeRefParticle, refAt, simTrackletDet1, AbsInt,
      TMath.Abs, TMath.Pi, tdiv_one_thirty]

end AliTRDonlineTrackletQA

/-! ## Theorems: event selection, kink cut, task registration, `PlotMC` label check -/

namespace AliAnalysisHFjetTagHFE

/-- C12: `Run` analyses an event (enters the block that fills the selected-centrality histogram
and runs the cluster, jet and track loops) if and only if the primary vertex satisfies
`|z| < 10` and either `fcentMim < -10` or the centrality lies strictly between `fcentMim` and
`fcentMax`. -/
theorem Run_eventSelected_iff (fcentMim fcentMax centrality Zvertex : ℚ) :
    Run_eventSelected fcentMim fcentMax centrality Zvertex = true ↔
      |Zvertex| < 10 ∧
        (fcentMim < -10 ∨ (fcentMim < centrality ∧ centrality < fcentMax)) := by
  unfold Run_eventSelected
  simp only [TMath_Abs_eq, Bool.and_eq_true, decide_eq_true_eq]
  have h10 : (10.0 : ℚ) = 10 := by norm_num
  rw [h10]
  by_cases h : fcentMim < -10
  · simp [h]
  · by_cases h2 : fcentMim < centrality ∧ centrality < fcentMax
    · simp [h, h2]
    · simp only [h, if_false, false_or, h2, and_false, iff_false, not_and]
      intro _
      rw [not_and] at h2
      by_cases h3 : fcentMim < centrality
      · simp [h3, h2 h3]
      · simp [h3]

theorem Run_kinkMothers_mem (vertices : List (Option AliAODVertex)) (acc : List ℚ) (x : ℚ) :
    x ∈ Run_kinkMothers vertices acc ↔
      x ∈ acc ∨ ∃ v : AliAODVertex, some v ∈ vertices ∧ v.isKink = true ∧
        ∃ idmother : Int, v.Parent = some idmother ∧ x = (idmother : ℚ) := by
  induction vertices generalizing acc with
  | nil => simp [Run_kinkMothers]
  | cons o rest ih =>
    cases o with
    | none => simp [Run_kinkMothers, ih]
    | some v =>
      unfold Run_kinkMothers
      cases hk : v.isKink with
      | false =>
        simp only [Bool.false_eq_true, if_false, ih, List.mem_cons, Option.some.injEq]
        constructor
        · rintro (h | ⟨w, hw, h1, h2⟩)
          · exact Or.inl h
          · exact Or.inr ⟨w, Or.inr hw, h1, h2⟩
        · rintro (h | ⟨w, hw | hw, h1, h2⟩)
          · exact Or.inl h
          · subst hw; rw [hk] at h1; exact absurd h1 (by decide)
          · exact Or.inr ⟨w, hw, h1, h2⟩
      | true =>
        simp only [if_true]
        cases hp : v.Parent with
        | none =>
          simp only [ih, List.mem_cons, Option.some.injEq]
          constructor
          · rintro (h | ⟨w, hw, h1, h2⟩)
            · exact Or.inl h
            · exact Or.inr ⟨w, Or.inr hw, h1, h2⟩
          · rintro (h | ⟨w, hw | hw, h1, i, h2, h3⟩)
            · exact Or.inl h
            · subst hw; rw [hp] at h2; exact absurd h2 (by simp)
            · exact Or.inr ⟨w, hw, h1, i, h2, h3⟩
        | some idm =>
          simp only [ih, List.mem_cons, Option.some.injEq, List.mem_append, List.not_mem_nil,
            or_false]
          constructor
          · rintro ((h | h) | ⟨w, hw, h1, h2⟩)
            · exact Or.inl h
            · exact Or.inr ⟨v, Or.inl rfl, hk, idm, hp, h⟩
            · exact Or.inr ⟨w, Or.inr hw, h1, h2⟩
          · rintro (h | ⟨w, hw | hw, h1, i, h2, h3⟩)
            · exact Or.inl (Or.inl h)
            · subst hw
              rw [hp] at h2
              simp only [Option.some.injEq] at h2
              subst h2
              exact Or.inl (Or.inr h3)
            · exact Or.inr ⟨w, hw, h1, i, h2, h3⟩

theorem Run_kinkLoop_eq_false (ID : Int) (l : List ℚ) (b : Bool) :
    Run_kinkLoop ID l b = false ↔ b = false ∨ (ID : ℚ) ∈ l := by
  induction l generalizing b with
  | nil => simp [Run_kinkLoop]
  | cons x rest ih =>
    unfold Run_kinkLoop
    by_cases h : (ID : ℚ) = x
    · simp [h, ih]
    · simp only [h, if_false, ih, List.mem_cons, false_or]

/-- C20: a track is rejected by the kink cut of `Run` if and only if its ID equals the ID of
the parent track of some kink-type vertex of the event; null vertices and vertices without a
parent contribute nothing. -/
theorem Run_kinkRejected_iff (vertices : List (Option AliAODVertex)) (ID : Int) :
    Run_kinkRejected vertices ID = true ↔
      ∃ v : AliAODVertex, some v ∈ vertices ∧ v.isKink = true ∧ v.Parent = some ID := by
  unfold Run_kinkRejected
  rw [Bool.not_eq_true', Run_kinkLoop_eq_false, Run_kinkMothers_mem]
  simp only [Bool.true_eq_false, List.not_mem_nil, false_or]
  constructor
  · rintro ⟨v, hv, hk, i, hp, hi⟩
    have : ID = i := by exact_mod_cast hi
    subst this
    exact ⟨v, hv, hk, hp⟩
  · rintro ⟨v, hv, hk, hp⟩
    exact ⟨v, hv, hk, ID, hp, rfl⟩

end AliAnalysisHFjetTagHFE

namespace AliAnalysisDecorrTask

/-- C13: `AddCorr(harms, gaps, doRFPs, doPOIs)` registers exactly one new correlation task, built
from these four arguments, after all previously registered tasks, which keep their order and
are unchanged; no other setting of the flow task is modified. -/
theorem AddCorr_appends_one {CorrTask : Type}
    (newCorrTask : Bool → Bool → List Int → List ℚ → CorrTask) (t : Task CorrTask)
    (harms : List Int) (gaps : List ℚ) (doRFPs doPOIs : Bool) :
    (AddCorr newCorrTask t harms gaps doRFPs doPOIs).fVecCorrTask =
        t.fVecCorrTask ++ [newCorrTask doRFPs doPOIs harms gaps] ∧
    (AddCorr newCorrTask t harms gaps doRFPs doPOIs).fVecCorrTask.length =
        t.fVecCorrTask.length + 1 ∧
    (∀ i : Nat, i < t.fVecCorrTask.length →
        (AddCorr newCorrTask t harms gaps doRFPs doPOIs).fVecCorrTask[i]? =
          t.fVecCorrTask[i]?) ∧
    (AddCorr newCorrTask t harms gaps doRFPs doPOIs).fVecCorrTask[t.fVecCorrTask.length]? =
        some (newCorrTask doRFPs doPOIs harms gaps) ∧
    (AddCorr newCorrTask t harms gaps doRFPs doPOIs).settings = t.settings := by
  refine ⟨rfl, ?_, ?_, ?_, rfl⟩
  · simp [AddCorr]
  · intro i hi
    simp only [AddCorr]
    rw [List.getElem?_append_left hi]
  · simp [AddCorr]

end AliAnalysisDecorrTask

namespace AliTRDonlineTrackletQA

/-- C14: `PlotMC` returns without filling any histogram or tree entry when the label of the
tracklet is negative or is not smaller than the number of tracks of the MC event. -/
theorem PlotMC_invalid_label (fMinPt : ℚ) (GetX : AliESDTrdTracklet → ℚ)
    (fMCEvent : List AliMCParticle) (trkl : AliESDTrdTracklet)
    (h : trkl.Label < 0 ∨ (fMCEvent.length : Int) ≤ trkl.Label) :
    PlotMC fMinPt GetX fMCEvent trkl = none := by
  unfold PlotMC
  rcases h with h | h
  · simp [h]
  · by_cases h0 : trkl.Label < 0
    · simp [h0]
    · simp [h0, h]

/-- Witness for C14: a tracklet with label -2 against an MC event of one particle. -/
theorem PlotMC_invalid_label_witness :
    (rawTracklet3.Label < 0 ∨ (([twoRefParticle] : List AliMCParticle).length : Int)
        ≤ rawTracklet3.Label) ∧
    PlotMC 1 (fun _ => 300) [twoRefParticle] rawTracklet3 = none :=
  ⟨Or.inl (by decide),
   PlotMC_invalid_label 1 (fun _ => 300) [twoRefParticle] rawTracklet3 (Or.inl (by decide))⟩

end AliTRDonlineTrackletQA

/-! ## Theorems: the track-reference loop of `Exec` and the low-pt tests -/

namespace AliTRDonlineTrackletQA

theorem trackRefLoop_pair (fMinPt : ℚ) (GetX GetZ : AliESDTrdTracklet → ℚ)
    (iterated : List AliESDTrdTracklet) (refs : List AliTrackReference)
    (tr : Option AliTrackReference) (p : PairLog)
    (hp : p ∈ trackRefLoop fMinPt GetX GetZ iterated refs tr) :
    p.deflLength = 3 * (p.tr1.LocalY - p.tr0.LocalY) / (p.tr1.LocalX - p.tr0.LocalX) ∧
    0.5 ≤ |p.tr1.LocalX - p.tr0.LocalX| ∧ |p.tr1.LocalX - p.tr0.LocalX| ≤ 5 := by
  induction refs generalizing tr with
  | nil => simp [trackRefLoop] at hp
  | cons r rest ih =>
    simp only [trackRefLoop] at hp
    split_ifs at hp with h1 h2 h3
    · exact ih _ hp
    · exact ih _ hp
    · exact ih _ hp
    all_goals
      cases tr with
      | none => exact ih _ hp
      | some t0 =>
        simp only [AliAnalysisHFjetTagHFE.TMath_Abs_eq] at hp
        by_cases h4 : |r.LocalX - t0.LocalX| > 5
        · rw [if_pos h4] at hp
          exact ih _ hp
        · rw [if_neg h4] at hp
          by_cases h5 : |r.LocalX - t0.LocalX| < 0.5
          · rw [if_pos h5] at hp
            exact ih _ hp
          · rw [if_neg h5] at hp
            by_cases h6 : 3 * (r.LocalY - t0.LocalY) / (r.LocalX - t0.LocalX) < 1
            · rw [if_pos h6] at hp
              rcases List.mem_cons.1 hp with e | e
              · subst e
                exact ⟨rfl, not_lt.1 h5, not_lt.1 h4⟩
              · exact ih _ e
            · rw [if_neg h6] at hp
              rcases List.mem_cons.1 hp with e | e
              · subst e
                exact ⟨rfl, not_lt.1 h5, not_lt.1 h4⟩
              · exact ih _ e

theorem mcLoop_pair (fMinPt : ℚ) (GetX GetZ : AliESDTrdTracklet → ℚ)
    (iterated : List AliESDTrdTracklet) (tracks : List AliMCParticle) (p : PairLog)
    (hp : p ∈ mcLoop fMinPt GetX GetZ iterated tracks) :
    p.deflLength = 3 * (p.tr1.LocalY - p.tr0.LocalY) / (p.tr1.LocalX - p.tr0.LocalX) ∧
    0.5 ≤ |p.tr1.LocalX - p.tr0.LocalX| ∧ |p.tr1.LocalX - p.tr0.LocalX| ≤ 5 := by
  induction tracks with
  | nil => simp [mcLoop] at hp
  | cons m rest ih =>
    simp only [mcLoop] at hp
    split_ifs at hp with h1 h2
    · exact ih hp
    · exact ih hp
    · rcases List.mem_append.1 hp with e | e
      · exact trackRefLoop_pair _ _ _ _ _ _ _ e
      · exact ih e

theorem twoRefParticle_log :
    Exec_MC 1 (fun _ => 300) (fun _ => 0) oneSimEvent (some [twoRefParticle]) =
      [{ tr0 := refAt 298, tr1 := refAt 300, deflLength := 0,
         fills := [Fill.HistCanddY 0, Fill.HistTrklPerRef 0] }] := by
  norm_num [Exec_MC, mcLoop, trackRefLoop, countLoop, twoRefParticle, refAt,
    TMath.Abs, trackletsSimAfterMatch, matchDetector, matchLoop, trackletsSim, trackletsRaw,
    readTracklets, oneSimEvent, simTrackletDet1, TListArray.Add]

/-- C15: whenever `Exec` computes the deflection length from two track references, the two
references differ in local x by at least 0.5 and at most 5 in absolute value, so the divisor
`x1 - x0` is not zero; in the loop, a qualifying reference farther than 5 from the remembered
one replaces it, and one closer than 0.5 is skipped. -/
theorem Exec_deflection_divisor (fMinPt : ℚ) (GetX GetZ : AliESDTrdTracklet → ℚ)
    (esd : List (Option AliESDTrdTracklet)) (fMCEvent : Option (List AliMCParticle))
    (p : PairLog) (hp : p ∈ Exec_MC fMinPt GetX GetZ esd fMCEvent) :
    (p.deflLength = 3 * (p.tr1.LocalY - p.tr0.LocalY) / (p.tr1.LocalX - p.tr0.LocalX) ∧
      0.5 ≤ |p.tr1.LocalX - p.tr0.LocalX| ∧ |p.tr1.LocalX - p.tr0.LocalX| ≤ 5 ∧
      p.tr1.LocalX - p.tr0.LocalX ≠ 0) ∧
    (∀ (iterated : List AliESDTrdTracklet) (rest : List AliTrackReference)
        (tr0 trackRef : AliTrackReference),
        trackRef.isTRD = true → fMinPt ≤ trackRef.Pt → 0 ≤ trackRef.Label →
        (5 < |trackRef.LocalX - tr0.LocalX| →
          trackRefLoop fMinPt GetX GetZ iterated (trackRef :: rest) (some tr0) =
            trackRefLoop fMinPt GetX GetZ iterated rest (some trackRef)) ∧
        (|trackRef.LocalX - tr0.LocalX| < 0.5 →
          trackRefLoop fMinPt GetX GetZ iterated (trackRef :: rest) (some tr0) =
            trackRefLoop fMinPt GetX GetZ iterated rest (some tr0))) := by
  constructor
  · have key : p.deflLength =
          3 * (p.tr1.LocalY - p.tr0.LocalY) / (p.tr1.LocalX - p.tr0.LocalX) ∧
        0.5 ≤ |p.tr1.LocalX - p.tr0.LocalX| ∧ |p.tr1.LocalX - p.tr0.LocalX| ≤ 5 := by
      unfold Exec_MC at hp
      cases fMCEvent with
      | none => simp at hp
      | some tracks => exact mcLoop_pair _ _ _ _ _ _ hp
    refine ⟨key.1, key.2.1, key.2.2, ?_⟩
    intro h0
    have h1 := key.2.1
    rw [h0, abs_zero] at h1
    norm_num at h1
  · intro iterated rest tr0 trackRef h1 h2 h3
    constructor
    · intro h4
      simp only [trackRefLoop, h1, Bool.not_true, Bool.false_eq_true, if_false, not_lt.2 h2,
        not_lt.2 h3, AliAnalysisHFjetTagHFE.TMath_Abs_eq, gt_iff_lt, h4, if_true]
    · intro h4
      have h5 : ¬ (5 < |trackRef.LocalX - tr0.LocalX|) := by
        intro h6
        have : (0.5 : ℚ) < 5 := by norm_num
        exact absurd (lt_trans h6 (lt_trans h4 this)) (lt_irrefl _)
      simp only [trackRefLoop, h1, Bool.not_true, Bool.false_eq_true, if_false, not_lt.2 h2,
        not_lt.2 h3, AliAnalysisHFjetTagHFE.TMath_Abs_eq, gt_iff_lt, h5, h4, if_true]

/-- Witness for C15: the pair of track references of `twoRefParticle`. -/
theorem Exec_deflection_divisor_witness :
    (({ tr0 := refAt 298, tr1 := refAt 300, deflLength := 0,
        fills := [Fill.HistCanddY 0, Fill.HistTrklPerRef 0] } : PairLog) ∈
      Exec_MC 1 (fun _ => 300) (fun _ => 0) oneSimEvent (some [twoRefParticle])) ∧
    (((0 : ℚ) = 3 * ((refAt 300).LocalY - (refAt 298).LocalY)
          / ((refAt 300).LocalX - (refAt 298).LocalX) ∧
      0.5 ≤ |(refAt 300).LocalX - (refAt 298).LocalX| ∧
      |(refAt 300).LocalX - (refAt 298).LocalX| ≤ 5 ∧
      (refAt 300).LocalX - (refAt 298).LocalX ≠ 0) ∧
    (∀ (iterated : List AliESDTrdTracklet) (rest : List AliTrackReference)
        (tr0 trackRef : AliTrackReference),
        trackRef.isTRD = true → (1 : ℚ) ≤ trackRef.Pt → 0 ≤ trackRef.Label →
        (5 < |trackRef.LocalX - tr0.LocalX| →
          trackRefLoop 1 (fun _ => 300) (fun _ => 0) iterated (trackRef :: rest) (some tr0) =
            trackRefLoop 1 (fun _ => 300) (fun _ => 0) iterated rest (some trackRef)) ∧
        (|trackRef.LocalX - tr0.LocalX| < 0.5 →
          trackRefLoop 1 (fun _ => 300) (fun _ => 0) iterated (trackRef :: rest) (some tr0) =
            trackRefLoop 1 (fun _ => 300) (fun _ => 0) iterated rest (some tr0)))) :=
  ⟨by rw [twoRefParticle_log]; exact List.mem_singleton.2 rfl,
   Exec_deflection_divisor 1 (fun _ => 300) (fun _ => 0) oneSimEvent (some [twoRefParticle])
    { tr0 := refAt 298, tr1 := refAt 300, deflLength := 0,
      fills := [Fill.HistCanddY 0, Fill.HistTrklPerRef 0] }
    (by rw [twoRefParticle_log]; exact List.mem_singleton.2 rfl)⟩

/-- C16 (the code at a failing input): for two track references with `x1 - x0 = 2` and
`y1 - y0 = -4` the deflection length is -6, of magnitude 6, and `Exec` counts the pair as a
candidate: it fills the candidate-deflection histogram and the tracklets-per-reference
histogram. -/
theorem Exec_counts_large_negative_deflection :
    Exec_MC 1 (fun _ => 300) (fun _ => 0) [] (some [steepParticle]) =
      [{ tr0 := refAtXY 298 0, tr1 := refAtXY 300 (-4), deflLength := -6,
         fills := [Fill.HistCanddY (-3000 / 7), Fill.HistTrklPerRef 0] }] ∧
    (1 : ℚ) ≤ |(-6 : ℚ)| := by
  constructor
  · norm_num [Exec_MC, mcLoop, trackRefLoop, countLoop, steepParticle, refAtXY,
      TMath.Abs, trackletsSimAfterMatch, matchDetector, matchLoop, trackletsSim, trackletsRaw,
      readTracklets]
  · norm_num

end AliTRDonlineTrackletQA

/-! ## Theorems: `SelectPhotonicElectron` -/

namespace AliAnalysisHFjetTagHFE

theorem sqrtGt_eq_false_iff (s c : ℚ) :
    sqrtGt s c = false ↔ Real.sqrt (s : ℝ) ≤ (c : ℝ) := by
  unfold sqrtGt
  rw [decide_eq_false_iff_not, not_or, not_lt, not_lt, Real.sqrt_le_iff]
  constructor
  · rintro ⟨h1, h2⟩
    exact ⟨by exact_mod_cast h1, by exact_mod_cast h2⟩
  · rintro ⟨h1, h2⟩
    exact ⟨by exact_mod_cast h1, by exact_mod_cast h2⟩

theorem partnerAccepted_iff (itrack : Int) (fptAssocut fInvmassCut : ℚ) (jtrack : Int)
    (a : AssoTrack) :
    partnerAccepted itrack fptAssocut fInvmassCut jtrack a = true ↔
      jtrack ≠ itrack ∧ passesPartnerCuts fptAssocut a ∧ a.recgMass < fInvmassCut := by
  unfold partnerAccepted passesPartnerCuts
  simp only [Bool.and_eq_true, decide_eq_true_eq, Bool.not_eq_true', sqrtGt_eq_false_iff,
    TMath_Abs_eq, abs_le]
  have h3 : ((3 : ℚ) : ℝ) = 3 := by norm_num
  rw [h3]
  constructor
  · rintro ⟨⟨⟨⟨⟨⟨⟨⟨⟨⟨⟨⟨h1, h2⟩, h3⟩, h4⟩, h5⟩, h6⟩, h7⟩, h8⟩, h9⟩, h10⟩, h11⟩, h12⟩, h13⟩
    exact ⟨h1, ⟨h2, h3, h4, h5, h6, ⟨h7, h8⟩, ⟨h9, h10⟩, h11, h12⟩, h13⟩
  · rintro ⟨h1, ⟨h2, h3, h4, h5, h6, ⟨h7, h8⟩, ⟨h9, h10⟩, h11, h12⟩, h13⟩
    exact ⟨⟨⟨⟨⟨⟨⟨⟨⟨⟨⟨⟨h1, h2⟩, h3⟩, h4⟩, h5⟩, h6⟩, h7⟩, h8⟩, h9⟩, h10⟩, h11⟩, h12⟩, h13⟩

theorem SelectPhotonicElectron_step (itrack charge : Int) (fptAssocut fInvmassCut : ℚ)
    (a : AssoTrack) (rest : List (Option AssoTrack)) (jtrack : Int) (fP fC : Bool) :
    SelectPhotonicElectron_loop itrack charge fptAssocut fInvmassCut (some a :: rest) jtrack
        fP fC =
      SelectPhotonicElectron_loop itrack charge fptAssocut fInvmassCut rest (jtrack + 1)
        (fP || (partnerAccepted itrack fptAssocut fInvmassCut jtrack a
          && decide (charge ≠ a.Charge)))
        (fC || (partnerAccepted itrack fptAssocut fInvmassCut jtrack a
          && decide (charge = a.Charge))) := by
  have skip : partnerAccepted itrack fptAssocut fInvmassCut jtrack a = false →
      SelectPhotonicElectron_loop itrack charge fptAssocut fInvmassCut rest (jtrack + 1) fP fC =
      SelectPhotonicElectron_loop itrack charge fptAssocut fInvmassCut rest (jtrack + 1)
        (fP || (partnerAccepted itrack fptAssocut fInvmassCut jtrack a
          && decide (charge ≠ a.Charge)))
        (fC || (partnerAccepted itrack fptAssocut fInvmassCut jtrack a
          && decide (charge = a.Charge))) := by
    intro hA
    rw [hA]
    simp only [Bool.false_and, Bool.or_false]
  simp only [SelectPhotonicElectron_loop]
  by_cases h0 : jtrack = itrack
  · rw [if_pos h0]
    exact skip (by simp [partnerAccepted, h0])
  rw [if_neg h0]
  by_cases h1 : (!a.TestFilterMaskTPCOnly) = true
  · rw [if_pos h1]
    simp only [Bool.not_eq_true'] at h1
    exact skip (by simp [partnerAccepted, h1])
  rw [if_neg h1]
  by_cases h2 : a.TPCNcls < 70
  · rw [if_pos h2]
    exact skip (by simp [partnerAccepted, h2])
  rw [if_neg h2]
  by_cases h3 : (!a.ITSrefit || !a.TPCrefit) = true
  · rw [if_pos h3]
    simp only [Bool.or_eq_true, Bool.not_eq_true'] at h3
    rcases h3 with h3 | h3
    · exact skip (by simp [partnerAccepted, h3])
    · exact skip (by simp [partnerAccepted, h3])
  rw [if_neg h3]
  by_cases h4 : a.Pt < fptAssocut
  · rw [if_pos h4]
    exact skip (by simp [partnerAccepted, h4])
  rw [if_neg h4]
  by_cases h5 : (decide (a.Eta < -0.9) || decide (a.Eta > 0.9)) = true
  · rw [if_pos h5]
    simp only [Bool.or_eq_true, decide_eq_true_eq] at h5
    rcases h5 with h5 | h5
    · exact skip (by simp [partnerAccepted, h5])
    · exact skip (by simp [partnerAccepted, h5])
  rw [if_neg h5]
  by_cases h6 : (decide (a.nsigma < -3) || decide (a.nsigma > 3)) = true
  · rw [if_pos h6]
    simp only [Bool.or_eq_true, decide_eq_true_eq] at h6
    rcases h6 with h6 | h6
    · exact skip (by simp [partnerAccepted, h6])
    · exact skip (by simp [partnerAccepted, h6])
  rw [if_neg h6]
  by_cases h7 : a.recgNDF < 1
  · rw [if_pos h7]
    exact skip (by simp [partnerAccepted, h7])
  rw [if_neg h7]
  by_cases h8 : sqrtGt (TMath.Abs (a.recgChi2 / (a.recgNDF : ℚ))) 3 = true
  · rw [if_pos h8]
    exact skip (by simp [partnerAccepted, h8])
  rw [if_neg h8]
  simp only [Bool.not_eq_true', Bool.or_eq_true, decide_eq_true_eq, not_or, not_lt,
    Bool.not_eq_true, Bool.or_eq_false_iff, Bool.not_eq_false', decide_eq_false_iff_not,
    gt_iff_lt] at h1 h3 h5 h6 h8
  have hA : partnerAccepted itrack fptAssocut fInvmassCut jtrack a =
      decide (a.recgMass < fInvmassCut) := by
    simp [partnerAccepted, h0, h1, not_lt.1 h2, h3.1, h3.2, not_lt.1 h4, h5.1, h5.2, h6.1,
      h6.2, not_lt.1 h7, h8]
  rw [hA]
  congr 1
  · cases fP <;> cases (decide (a.recgMass < fInvmassCut)) <;>
      cases (decide (charge ≠ a.Charge)) <;> rfl
  · cases fC <;> cases (decide (a.recgMass < fInvmassCut)) <;>
      cases (decide (charge = a.Charge)) <;> rfl

end AliAnalysisHFjetTagHFE

namespace AliAnalysisHFjetTagHFE

theorem exists_index_cons (P : Int → AssoTrack → Prop) (o : Option AssoTrack)
    (rest : List (Option AssoTrack)) (j : Int) :
    (∃ (k : Nat) (a : AssoTrack), (o :: rest)[k]? = some (some a) ∧ P (j + (k : Int)) a) ↔
      (∃ a : AssoTrack, o = some a ∧ P j a) ∨
      (∃ (k : Nat) (a : AssoTrack), rest[k]? = some (some a) ∧ P (j + 1 + (k : Int)) a) := by
  constructor
  · rintro ⟨k, a, h, hp⟩
    cases k with
    | zero =>
      simp only [List.getElem?_cons_zero, Option.some.injEq] at h
      simp only [Nat.cast_zero, add_zero] at hp
      exact Or.inl ⟨a, h, hp⟩
    | succ n =>
      simp only [List.getElem?_cons_succ] at h
      have e : j + ((n + 1 : Nat) : Int) = j + 1 + (n : Int) := by push_cast; ring
      rw [e] at hp
      exact Or.inr ⟨n, a, h, hp⟩
  · rintro (⟨a, h, hp⟩ | ⟨n, a, h, hp⟩)
    · refine ⟨0, a, ?_, ?_⟩
      · simp [h]
      · simpa using hp
    · refine ⟨n + 1, a, ?_, ?_⟩
      · simpa using h
      · have e : j + ((n + 1 : Nat) : Int) = j + 1 + (n : Int) := by push_cast; ring
        rw [e]
        exact hp

theorem SelectPhotonicElectron_loop_spec (itrack charge : Int) (fptAssocut fInvmassCut : ℚ)
    (l : List (Option AssoTrack)) (j : Int) (fP fC : Bool) :
    ((SelectPhotonicElectron_loop itrack charge fptAssocut fInvmassCut l j fP fC).1 = true ↔
      fP = true ∨ ∃ (k : Nat) (a : AssoTrack), l[k]? = some (some a) ∧
        (partnerAccepted itrack fptAssocut fInvmassCut (j + (k : Int)) a = true ∧
          charge ≠ a.Charge)) ∧
    ((SelectPhotonicElectron_loop itrack charge fptAssocut fInvmassCut l j fP fC).2 = true ↔
      fC = true ∨ ∃ (k : Nat) (a : AssoTrack), l[k]? = some (some a) ∧
        (partnerAccepted itrack fptAssocut fInvmassCut (j + (k : Int)) a = true ∧
          charge = a.Charge)) := by
  induction l generalizing j fP fC with
  | nil => simp [SelectPhotonicElectron_loop]
  | cons o rest ih =>
    rw [exists_index_cons (fun i a =>
        partnerAccepted itrack fptAssocut fInvmassCut i a = true ∧ charge ≠ a.Charge),
      exists_index_cons (fun i a =>
        partnerAccepted itrack fptAssocut fInvmassCut i a = true ∧ charge = a.Charge)]
    cases o with
    | none =>
      have e : SelectPhotonicElectron_loop itrack charge fptAssocut fInvmassCut
          (none :: rest) j fP fC =
          SelectPhotonicElectron_loop itrack charge fptAssocut fInvmassCut rest (j + 1)
            fP fC := by
        simp only [SelectPhotonicElectron_loop]
      rw [e]
      obtain ⟨ih1, ih2⟩ := ih (j + 1) fP fC
      rw [ih1, ih2]
      simp
    | some a =>
      rw [SelectPhotonicElectron_step]
      obtain ⟨ih1, ih2⟩ := ih (j + 1)
        (fP || (partnerAccepted itrack fptAssocut fInvmassCut j a && decide (charge ≠ a.Charge)))
        (fC || (partnerAccepted itrack fptAssocut fInvmassCut j a && decide (charge = a.Charge)))
      rw [ih1, ih2]
      simp only [Bool.or_eq_true, Bool.and_eq_true, decide_eq_true_eq, Option.some.injEq,
        exists_eq_left']
      exact ⟨or_assoc, or_assoc⟩

/-- C11: `SelectPhotonicElectron` overwrites both output flags whatever their incoming values:
the photonic (unlike-sign) flag is true iff some partner track other than the candidate itself
(position different from `itrack`) passes the partner cuts (TPC-only filter mask, at least 70
TPC clusters, ITS and TPC refit, `pt >= fptAssocut`, `|eta| <= 0.9`, `|nsigma| <= 3`, pair
`NDF >= 1` and `sqrt|chi2/NDF| <= 3`), has a charge different from the candidate's and a pair
mass below `fInvmassCut`; the like-sign flag is true iff such a partner exists with the same
charge. -/
theorem SelectPhotonicElectron_flags (itrack charge : Int) (fptAssocut fInvmassCut : ℚ)
    (tracks : List (Option AssoTrack)) (inPhotonic inConvinat : Bool) :
    ((SelectPhotonicElectron itrack charge fptAssocut fInvmassCut tracks
        inPhotonic inConvinat).1 = true ↔
      ∃ (jtrack : Nat) (a : AssoTrack), tracks[jtrack]? = some (some a) ∧
        (jtrack : Int) ≠ itrack ∧ passesPartnerCuts fptAssocut a ∧
        a.Charge ≠ charge ∧ a.recgMass < fInvmassCut) ∧
    ((SelectPhotonicElectron itrack charge fptAssocut fInvmassCut tracks
        inPhotonic inConvinat).2 = true ↔
      ∃ (jtrack : Nat) (a : AssoTrack), tracks[jtrack]? = some (some a) ∧
        (jtrack : Int) ≠ itrack ∧ passesPartnerCuts fptAssocut a ∧
        a.Charge = charge ∧ a.recgMass < fInvmassCut) ∧
    (∀ b c : Bool,
      SelectPhotonicElectron itrack charge fptAssocut fInvmassCut tracks b c =
        SelectPhotonicElectron itrack charge fptAssocut fInvmassCut tracks
          inPhotonic inConvinat) := by
  obtain ⟨h1, h2⟩ :=
    SelectPhotonicElectron_loop_spec itrack charge fptAssocut fInvmassCut tracks 0 false false
  refine ⟨?_, ?_, fun _ _ => rfl⟩
  · unfold SelectPhotonicElectron
    rw [h1]
    simp only [Bool.false_eq_true, false_or, zero_add, partnerAccepted_iff]
    constructor
    · rintro ⟨k, a, h, ⟨h3, h4, h5⟩, h6⟩
      exact ⟨k, a, h, h3, h4, fun e => h6 e.symm, h5⟩
    · rintro ⟨k, a, h, h3, h4, h6, h5⟩
      exact ⟨k, a, h, ⟨h3, h4, h5⟩, fun e => h6 e.symm⟩
  · unfold SelectPhotonicElectron
    rw [h2]
    simp only [Bool.false_eq_true, false_or, zero_add, partnerAccepted_iff]
    constructor
    · rintro ⟨k, a, h, ⟨h3, h4, h5⟩, h6⟩
      exact ⟨k, a, h, h3, h4, h6.symm, h5⟩
    · rintro ⟨k, a, h, h3, h4, h6, h5⟩
      exact ⟨k, a, h, ⟨h3, h4, h5⟩, h6.symm⟩

end AliAnalysisHFjetTagHFE

/-! ## Theorems: binary64 arithmetic

The rounding of the model is monotone and idempotent (`round_mono`, `round_round`) and returns a
nearest point of the grid of doubles (`round_nearest`); the rounded square root is within half a
grid step of the square root (`sqrtRound_spec`). -/

namespace Binary64

theorem roundHalfEven_intCast (n : Int) : roundHalfEven (n : ℚ) = n := by
  unfold roundHalfEven
  simp

theorem roundHalfEven_mono {y z : ℚ} (h : y ≤ z) : roundHalfEven y ≤ roundHalfEven z := by
  have hf : ⌊y⌋ ≤ ⌊z⌋ := Int.floor_mono h
  have hy1 : (⌊y⌋ : ℚ) ≤ y := Int.floor_le y
  have hz2 : z < (⌊z⌋ : ℚ) + 1 := Int.lt_floor_add_one z
  rcases hf.lt_or_eq with hlt | heq
  · unfold roundHalfEven
    split_ifs <;> omega
  · have hq : (⌊y⌋ : ℚ) = (⌊z⌋ : ℚ) := by rw [heq]
    unfold roundHalfEven
    rw [heq]
    split_ifs <;> first | omega | (exfalso; linarith)

theorem roundHalfEven_nonneg {y : ℚ} (h : 0 ≤ y) : 0 ≤ roundHalfEven y := by
  have := roundHalfEven_mono h
  rw [show ((0 : ℚ)) = ((0 : Int) : ℚ) by norm_num, roundHalfEven_intCast] at this
  exact this

theorem ulp_pos (x : ℚ) : 0 < ulp x := by
  unfold ulp
  positivity

theorem round_zero : round 0 = 0 := by
  unfold round
  rw [zero_div, show ((0 : ℚ)) = ((0 : Int) : ℚ) by norm_num, roundHalfEven_intCast]
  simp

theorem round_nonneg {x : ℚ} (h : 0 ≤ x) : 0 ≤ round x := by
  unfold round
  have h1 : 0 ≤ roundHalfEven (x / ulp x) := roundHalfEven_nonneg (div_nonneg h (ulp_pos x).le)
  have h2 : (0 : ℚ) ≤ (roundHalfEven (x / ulp x) : ℚ) := by exact_mod_cast h1
  exact mul_nonneg h2 (ulp_pos x).le

theorem bitLengthAux_spec (fuel : Nat) : ∀ n : Nat, n ≤ fuel → 0 < n →
    2 ^ (bitLengthAux fuel n - 1) ≤ n ∧ n < 2 ^ bitLengthAux fuel n := by
  induction fuel with
  | zero => intro n h1 h2; omega
  | succ fuel ih =>
      intro n h1 h2
      rw [bitLengthAux, if_neg (by omega)]
      by_cases h : n / 2 = 0
      · have hn : n = 1 := by omega
        subst hn
        cases fuel <;> simp [bitLengthAux]
      · obtain ⟨a, b⟩ := ih (n / 2) (by omega) (by omega)
        have hpos : 0 < bitLengthAux fuel (n / 2) := by
          rcases Nat.eq_zero_or_pos (bitLengthAux fuel (n / 2)) with h0 | h0
          · rw [h0] at b; omega
          · exact h0
        obtain ⟨k, hk⟩ : ∃ k, bitLengthAux fuel (n / 2) = k + 1 :=
          ⟨_, (Nat.sub_add_cancel hpos).symm⟩
        rw [hk] at a b ⊢
        simp only [Nat.add_sub_cancel] at a ⊢
        rw [pow_succ] at b ⊢
        constructor <;> omega

theorem bitLength_spec {n : Nat} (h : 0 < n) :
    2 ^ (bitLength n - 1) ≤ n ∧ n < 2 ^ bitLength n :=
  bitLengthAux_spec n n le_rfl h

theorem log2_spec {x : ℚ} (hx : 0 < x) :
    (2 : ℚ) ^ log2 x ≤ x ∧ x < (2 : ℚ) ^ (log2 x + 1) := by
  have hn : 0 < x.num := Rat.num_pos.mpr hx
  have hd : 0 < x.den := x.den_pos
  have hN : 0 < x.num.natAbs := Int.natAbs_pos.mpr hn.ne.symm
  obtain ⟨n1, n2⟩ := bitLength_spec hN
  obtain ⟨d1, d2⟩ := bitLength_spec hd
  have hL : 0 < bitLength x.num.natAbs := by
    rcases Nat.eq_zero_or_pos (bitLength x.num.natAbs) with h0 | h0
    · rw [h0] at n2; omega
    · exact h0
  have hM : 0 < bitLength x.den := by
    rcases Nat.eq_zero_or_pos (bitLength x.den) with h0 | h0
    · rw [h0] at d2; omega
    · exact h0
  obtain ⟨L, hL⟩ : ∃ k, bitLength x.num.natAbs = k + 1 := ⟨_, (Nat.sub_add_cancel hL).symm⟩
  obtain ⟨M, hM⟩ : ∃ k, bitLength x.den = k + 1 := ⟨_, (Nat.sub_add_cancel hM).symm⟩
  rw [hL] at n1 n2
  rw [hM] at d1 d2
  simp only [Nat.add_sub_cancel] at n1 d1
  have hxeq : x = (x.num.natAbs : ℚ) / (x.den : ℚ) := by
    have h2 : ((x.num.natAbs : ℕ) : ℚ) = (x.num : ℚ) := by
      rw [← Int.cast_natCast, Int.natAbs_of_nonneg hn.le]
    rw [h2]
    exact (Rat.num_div_den x).symm
  have qn1 : (2 : ℚ) ^ L ≤ (x.num.natAbs : ℚ) := by exact_mod_cast n1
  have qn2 : (x.num.natAbs : ℚ) < (2 : ℚ) ^ (L + 1) := by exact_mod_cast n2
  have qd1 : (2 : ℚ) ^ M ≤ (x.den : ℚ) := by exact_mod_cast d1
  have qd2 : (x.den : ℚ) < (2 : ℚ) ^ (M + 1) := by exact_mod_cast d2
  have qd0 : (0 : ℚ) < (x.den : ℚ) := by exact_mod_cast hd
  have two_ne : (2 : ℚ) ≠ 0 := by norm_num
  have e1 : (2 : ℚ) ^ ((L : Int) - (M : Int) + 1) = (2 : ℚ) ^ (L + 1) / (2 : ℚ) ^ M := by
    rw [eq_div_iff (by positivity), ← zpow_natCast (2 : ℚ) M, ← zpow_natCast (2 : ℚ) (L + 1),
      ← zpow_add₀ two_ne]
    congr 1
    push_cast
    ring
  have e2 : (2 : ℚ) ^ ((L : Int) - (M : Int) - 1) = (2 : ℚ) ^ L / (2 : ℚ) ^ (M + 1) := by
    rw [eq_div_iff (by positivity), ← zpow_natCast (2 : ℚ) L, ← zpow_natCast (2 : ℚ) (M + 1),
      ← zpow_add₀ two_ne]
    congr 1
    push_cast
    ring
  have up : x < (2 : ℚ) ^ ((L : Int) - (M : Int) + 1) := by
    rw [e1, hxeq, div_lt_div_iff₀ qd0 (by positivity)]
    calc (x.num.natAbs : ℚ) * (2 : ℚ) ^ M < (2 : ℚ) ^ (L + 1) * (2 : ℚ) ^ M := by
          apply mul_lt_mul_of_pos_right qn2 (by positivity)
      _ ≤ (2 : ℚ) ^ (L + 1) * (x.den : ℚ) := by
          apply mul_le_mul_of_nonneg_left qd1 (by positivity)
  have lo : (2 : ℚ) ^ ((L : Int) - (M : Int) - 1) ≤ x := by
    rw [e2, hxeq, div_le_div_iff₀ (by positivity) qd0]
    calc (2 : ℚ) ^ L * (x.den : ℚ) ≤ (2 : ℚ) ^ L * (2 : ℚ) ^ (M + 1) := by
          apply mul_le_mul_of_nonneg_left qd2.le (by positivity)
      _ ≤ (x.num.natAbs : ℚ) * (2 : ℚ) ^ (M + 1) := by
          apply mul_le_mul_of_nonneg_right qn1 (by positivity)
  have he : ((bitLength x.num.natAbs : Int) - (bitLength x.den : Int)) = (L : Int) - (M : Int) := by
    rw [hL, hM]
    push_cast
    ring
  unfold log2
  simp only [he]
  split_ifs with h
  · exact ⟨h, up⟩
  · refine ⟨lo, ?_⟩
    rw [sub_add_cancel]
    exact lt_of_not_le h

theorem log2_eq_log {x : ℚ} (hx : 0 < x) : log2 x = Int.log 2 x := by
  obtain ⟨h1, h2⟩ := log2_spec hx
  have a1 : log2 x ≤ Int.log 2 x := by
    rw [← Int.zpow_le_iff_le_log (by norm_num) hx, Nat.cast_ofNat]
    exact h1
  have a2 : Int.log 2 x < log2 x + 1 := by
    rw [← Int.lt_zpow_iff_log_lt (by norm_num) hx, Nat.cast_ofNat]
    exact h2
  omega

theorem exponent_of_pos {x : ℚ} (hx : 0 < x) : exponent x = max (Int.log 2 x) (-1022) := by
  unfold exponent
  rw [abs_of_pos hx, log2_eq_log hx]

theorem two_zpow_mono {a b : Int} (h : a ≤ b) : (2 : ℚ) ^ a ≤ (2 : ℚ) ^ b :=
  zpow_le_zpow_right₀ (by norm_num) h

theorem lt_two_zpow_exponent {x : ℚ} (hx : 0 < x) : x < (2 : ℚ) ^ (exponent x + 1) := by
  have h1 : x < ((2 : ℕ) : ℚ) ^ (Int.log 2 x + 1) := Int.lt_zpow_succ_log_self (by norm_num) x
  rw [Nat.cast_ofNat] at h1
  refine lt_of_lt_of_le h1 (two_zpow_mono ?_)
  rw [exponent_of_pos hx]
  omega

theorem two_zpow_exponent_le {x : ℚ} (hx : 0 < x) (he : -1022 < exponent x) :
    (2 : ℚ) ^ exponent x ≤ x := by
  have h1 : ((2 : ℕ) : ℚ) ^ (Int.log 2 x) ≤ x := Int.zpow_log_le_self (by norm_num) hx
  rw [Nat.cast_ofNat] at h1
  have e : exponent x = Int.log 2 x := by
    rw [exponent_of_pos hx] at he ⊢
    omega
  rw [e]
  exact h1

theorem exponent_mono {x y : ℚ} (hx : 0 < x) (h : x ≤ y) : exponent x ≤ exponent y := by
  rw [exponent_of_pos hx, exponent_of_pos (lt_of_lt_of_le hx h)]
  have := Int.log_mono_right (b := 2) hx h
  omega

theorem exponent_eq {x : ℚ} {e : Int} (he : -1022 ≤ e) (h1 : (2 : ℚ) ^ e ≤ x)
    (h2 : x < (2 : ℚ) ^ (e + 1)) : exponent x = e := by
  have hx : 0 < x := lt_of_lt_of_le (by positivity) h1
  have a1 : e ≤ Int.log 2 x := by
    rw [← Int.zpow_le_iff_le_log (by norm_num) hx, Nat.cast_ofNat]
    exact h1
  have a2 : Int.log 2 x < e + 1 := by
    rw [← Int.lt_zpow_iff_log_lt (by norm_num) hx, Nat.cast_ofNat]
    exact h2
  rw [exponent_of_pos hx]
  omega

theorem exponent_eq_min {x : ℚ} (hpos : 0 < x) (h2 : x < (2 : ℚ) ^ (-1021 : Int)) :
    exponent x = -1022 := by
  have a2 : Int.log 2 x < -1021 := by
    rw [← Int.lt_zpow_iff_log_lt (by norm_num) hpos, Nat.cast_ofNat]
    exact h2
  rw [exponent_of_pos hpos]
  omega

theorem ulp_mul (e : Int) : (9007199254740992 : ℚ) * (2 : ℚ) ^ (e - 52) = (2 : ℚ) ^ (e + 1) := by
  have h : (9007199254740992 : ℚ) = (2 : ℚ) ^ (53 : Int) := by norm_num
  rw [h, ← zpow_add₀ (by norm_num : (2 : ℚ) ≠ 0)]
  congr 1
  ring

theorem ulp_mul' (e : Int) : (4503599627370496 : ℚ) * (2 : ℚ) ^ (e - 52) = (2 : ℚ) ^ e := by
  have h : (4503599627370496 : ℚ) = (2 : ℚ) ^ (52 : Int) := by norm_num
  rw [h, ← zpow_add₀ (by norm_num : (2 : ℚ) ≠ 0)]
  congr 1
  ring

/-- For positive `x` the rounded significand is at most `2^53`. -/
theorem significand_le {x : ℚ} (hx : 0 < x) :
    roundHalfEven (x / ulp x) ≤ 9007199254740992 := by
  have h1 : x / ulp x ≤ ((9007199254740992 : Int) : ℚ) := by
    rw [div_le_iff₀ (ulp_pos x)]
    have := lt_two_zpow_exponent hx
    unfold ulp
    push_cast
    rw [ulp_mul]
    exact this.le
  have := roundHalfEven_mono h1
  rw [roundHalfEven_intCast] at this
  exact this

/-- For positive `x` in the normal range the rounded significand is at least `2^52`. -/
theorem le_significand {x : ℚ} (hx : 0 < x) (he : -1022 < exponent x) :
    4503599627370496 ≤ roundHalfEven (x / ulp x) := by
  have h1 : ((4503599627370496 : Int) : ℚ) ≤ x / ulp x := by
    rw [le_div_iff₀ (ulp_pos x)]
    have := two_zpow_exponent_le hx he
    unfold ulp
    push_cast
    rw [ulp_mul']
    exact this
  have := roundHalfEven_mono h1
  rw [roundHalfEven_intCast] at this
  exact this

theorem round_le_two_zpow {x : ℚ} (hx : 0 < x) : round x ≤ (2 : ℚ) ^ (exponent x + 1) := by
  have h := significand_le hx
  have h2 : (roundHalfEven (x / ulp x) : ℚ) ≤ (9007199254740992 : ℚ) := by exact_mod_cast h
  calc round x = (roundHalfEven (x / ulp x) : ℚ) * ulp x := rfl
    _ ≤ (9007199254740992 : ℚ) * ulp x := mul_le_mul_of_nonneg_right h2 (ulp_pos x).le
    _ = (2 : ℚ) ^ (exponent x + 1) := ulp_mul (exponent x)

theorem two_zpow_le_round {x : ℚ} (hx : 0 < x) (he : -1022 < exponent x) :
    (2 : ℚ) ^ exponent x ≤ round x := by
  have h := le_significand hx he
  have h2 : (4503599627370496 : ℚ) ≤ (roundHalfEven (x / ulp x) : ℚ) := by exact_mod_cast h
  calc (2 : ℚ) ^ exponent x = (4503599627370496 : ℚ) * ulp x := (ulp_mul' (exponent x)).symm
    _ ≤ (roundHalfEven (x / ulp x) : ℚ) * ulp x := mul_le_mul_of_nonneg_right h2 (ulp_pos x).le
    _ = round x := rfl

/-- Rounding is monotone on the non-negative rationals. -/
theorem round_mono {x y : ℚ} (hx : 0 ≤ x) (h : x ≤ y) : round x ≤ round y := by
  rcases hx.eq_or_lt with h0 | hpos
  · rw [← h0, round_zero]
    exact round_nonneg (le_trans hx h)
  · have hy : 0 < y := lt_of_lt_of_le hpos h
    rcases (exponent_mono hpos h).lt_or_eq with hlt | heq
    · have he : -1022 < exponent y := by
        have : -1022 ≤ exponent x := by unfold exponent; omega
        omega
      calc round x ≤ (2 : ℚ) ^ (exponent x + 1) := round_le_two_zpow hpos
        _ ≤ (2 : ℚ) ^ exponent y := two_zpow_mono (by omega)
        _ ≤ round y := two_zpow_le_round hy he
    · have hu : ulp x = ulp y := by unfold ulp; rw [heq]
      unfold round
      rw [hu]
      have : roundHalfEven (x / ulp y) ≤ roundHalfEven (y / ulp y) :=
        roundHalfEven_mono (div_le_div_of_nonneg_right h (ulp_pos y).le)
      exact mul_le_mul_of_nonneg_right (by exact_mod_cast this) (ulp_pos y).le

theorem round_def (y : ℚ) : round y = (roundHalfEven (y / ulp y) : ℚ) * ulp y := rfl

/-- A rounded non-negative value is a double: rounding it again changes nothing. -/
theorem round_round {x : ℚ} (hx : 0 ≤ x) : round (round x) = round x := by
  rcases hx.eq_or_lt with h0 | hpos
  · rw [← h0, round_zero, round_zero]
  · have hm0 : 0 ≤ roundHalfEven (x / ulp x) :=
      roundHalfEven_nonneg (div_nonneg hx (ulp_pos x).le)
    rcases hm0.eq_or_lt with hz | hmpos
    · have : round x = 0 := by
        unfold round
        rw [← hz]
        simp
      rw [this, round_zero]
    · have hrpos : 0 < round x := by
        unfold round
        exact mul_pos (by exact_mod_cast hmpos) (ulp_pos x)
      have hle := significand_le hpos
      rcases hle.eq_or_lt with heq | hlt
      · -- the significand is 2^53: the value is the power of two that opens the next binade
        have hr : round x = (2 : ℚ) ^ (exponent x + 1) := by
          unfold round
          rw [heq]
          push_cast
          exact ulp_mul (exponent x)
        have hge : -1022 ≤ exponent x + 1 := by
          have : -1022 ≤ exponent x := by unfold exponent; omega
          omega
        have he : exponent (round x) = exponent x + 1 := by
          apply exponent_eq hge
          · rw [hr]
          · rw [hr]
            exact zpow_lt_zpow_right₀ (by norm_num) (by omega)
        have hu : ulp (round x) = (2 : ℚ) ^ (exponent x + 1 - 52) := by
          unfold ulp
          rw [he]
        have hq : round x / ulp (round x) = ((4503599627370496 : Int) : ℚ) := by
          rw [hu, div_eq_iff (by positivity), hr]
          push_cast
          rw [ulp_mul']
        rw [round_def (round x), hq, roundHalfEven_intCast, hu]
        push_cast
        rw [ulp_mul', hr]
      · -- the significand is below 2^53: the value stays in the binade of `x`
        have he : exponent (round x) = exponent x := by
          have hlt' : round x < (2 : ℚ) ^ (exponent x + 1) := by
            have h2 : (roundHalfEven (x / ulp x) : ℚ) < (9007199254740992 : ℚ) := by
              exact_mod_cast hlt
            calc round x = (roundHalfEven (x / ulp x) : ℚ) * ulp x := rfl
              _ < (9007199254740992 : ℚ) * ulp x := mul_lt_mul_of_pos_right h2 (ulp_pos x)
              _ = (2 : ℚ) ^ (exponent x + 1) := ulp_mul (exponent x)
          have hmin : -1022 ≤ exponent x := by unfold exponent; omega
          rcases hmin.eq_or_lt with hsub | hnorm
          · rw [← hsub]
            apply exponent_eq_min hrpos
            rw [← hsub] at hlt'
            exact hlt'
          · exact exponent_eq hmin (two_zpow_le_round hpos hnorm) hlt'
        have hu : ulp (round x) = ulp x := by
          unfold ulp
          rw [he]
        have hq : round x / ulp (round x) = ((roundHalfEven (x / ulp x) : Int) : ℚ) := by
          rw [hu, div_eq_iff (ulp_pos x).ne']
          rfl
        rw [round_def (round x), hq, roundHalfEven_intCast, hu]
        rfl

theorem roundHalfEven_nearest (y : ℚ) : |(roundHalfEven y : ℚ) - y| ≤ 1 / 2 := by
  have h1 : (⌊y⌋ : ℚ) ≤ y := Int.floor_le y
  have h2 : y < (⌊y⌋ : ℚ) + 1 := Int.lt_floor_add_one y
  unfold roundHalfEven
  rw [abs_le]
  split_ifs with a b c
  · constructor <;> linarith
  · push_cast
    constructor <;> linarith
  · constructor <;> linarith
  · push_cast
    constructor <;> linarith

/-- The rounded value is a nearest point of the grid of spacing `ulp x`: it differs from `x` by
at most half the spacing. -/
theorem round_nearest (x : ℚ) : |round x - x| ≤ ulp x / 2 := by
  have hu := ulp_pos x
  have h := roundHalfEven_nearest (x / ulp x)
  have e : round x - x = ((roundHalfEven (x / ulp x) : ℚ) - x / ulp x) * ulp x := by
    unfold round
    field_simp
  rw [e, abs_mul, abs_of_pos hu]
  calc |(roundHalfEven (x / ulp x) : ℚ) - x / ulp x| * ulp x ≤ 1 / 2 * ulp x :=
        mul_le_mul_of_nonneg_right h hu.le
    _ = ulp x / 2 := by ring

theorem isqrtAux_spec (n : Nat) : ∀ (k acc : Nat), acc * acc ≤ n →
    n < (acc + 2 ^ k) * (acc + 2 ^ k) →
    isqrtAux n k acc * isqrtAux n k acc ≤ n ∧
      n < (isqrtAux n k acc + 1) * (isqrtAux n k acc + 1) := by
  intro k
  induction k with
  | zero =>
      intro acc h1 h2
      simpa [isqrtAux] using ⟨h1, h2⟩
  | succ k ih =>
      intro acc h1 h2
      rw [isqrtAux]
      by_cases h : (acc + 2 ^ k) * (acc + 2 ^ k) ≤ n
      · rw [if_pos h]
        apply ih _ h
        have e : acc + 2 ^ k + 2 ^ k = acc + 2 ^ (k + 1) := by
          rw [pow_succ]
          omega
        rw [e]
        exact h2
      · rw [if_neg h]
        exact ih _ h1 (lt_of_not_le h)

/-- The function `isqrt` is the integer square root on the numbers below `2^106`. -/
theorem isqrt_spec {n : Nat} (h : n < 2 ^ 106) :
    isqrt n * isqrt n ≤ n ∧ n < (isqrt n + 1) * (isqrt n + 1) := by
  unfold isqrt
  apply isqrtAux_spec n 53 0 (Nat.zero_le _)
  calc n < 2 ^ 106 := h
    _ = (0 + 2 ^ 53) * (0 + 2 ^ 53) := by norm_num

theorem sq_sub_half_le {a u x : ℚ} (hu : 0 < u) (ha : u ≤ a) (h1 : a ^ 2 ≤ x) :
    (a - u / 2) ^ 2 ≤ x := by
  have h0 : 0 ≤ a - u / 2 := by linarith
  nlinarith

theorem le_sq_add_half {b u x : ℚ} (hu : 0 < u) (hb : 0 ≤ b) (h2 : x < b ^ 2) :
    x ≤ (b + u / 2) ^ 2 := by
  nlinarith

/-- The value `sqrtRound x` is a multiple `M * u` of the spacing `u` of the doubles in the
binade of the square root, and differs from the square root by at most half the spacing: `x`
lies between the squares of `sqrtRound x - u/2` and `sqrtRound x + u/2`. -/
theorem sqrtRound_spec {x : ℚ} (hx : 0 < x) :
    (∃ M : Nat, sqrtRound x = (M : ℚ) * (2 : ℚ) ^ (log2 x / 2 - 52) ∧
      2 ^ 52 ≤ M ∧ M ≤ 2 ^ 53) ∧
    (sqrtRound x - (2 : ℚ) ^ (log2 x / 2 - 52) / 2) ^ 2 ≤ x ∧
    x ≤ (sqrtRound x + (2 : ℚ) ^ (log2 x / 2 - 52) / 2) ^ 2 := by
  obtain ⟨l1, l2⟩ := log2_spec hx
  set k : Int := log2 x / 2 with hk
  set u : ℚ := (2 : ℚ) ^ (k - 52) with hu
  have hupos : 0 < u := by positivity
  have two_ne : (2 : ℚ) ≠ 0 := by norm_num
  have hk1 : 2 * k ≤ log2 x := by omega
  have hk2 : log2 x + 1 ≤ 2 * k + 2 := by omega
  have huu : u * u = (2 : ℚ) ^ (2 * k - 104) := by
    rw [hu, ← zpow_add₀ two_ne]
    congr 1
    ring
  -- the scaled argument lies in [2^104, 2^106)
  have hlow : (2 : ℚ) ^ (104 : Nat) ≤ x / (u * u) := by
    rw [le_div_iff₀ (by positivity), huu, ← zpow_natCast (2 : ℚ) 104, ← zpow_add₀ two_ne]
    refine le_trans (two_zpow_mono ?_) l1
    push_cast
    omega
  have hhigh : x / (u * u) < (2 : ℚ) ^ (106 : Nat) := by
    rw [div_lt_iff₀ (by positivity), huu, ← zpow_natCast (2 : ℚ) 106, ← zpow_add₀ two_ne]
    refine lt_of_lt_of_le l2 (two_zpow_mono ?_)
    push_cast
    omega
  set N : Nat := (⌊x / (u * u)⌋).toNat with hN
  have hfl0 : 0 ≤ ⌊x / (u * u)⌋ := Int.floor_nonneg.mpr (le_trans (by positivity) hlow)
  have hNcast : ((N : Int) : ℚ) = (⌊x / (u * u)⌋ : ℚ) := by
    rw [hN, Int.toNat_of_nonneg hfl0]
  have hN1 : (N : ℚ) ≤ x / (u * u) := by
    have := Int.floor_le (x / (u * u))
    rw [← hNcast] at this
    exact_mod_cast this
  have hN2 : x / (u * u) < (N : ℚ) + 1 := by
    have := Int.lt_floor_add_one (x / (u * u))
    rw [← hNcast] at this
    exact_mod_cast this
  have hNlow : 2 ^ 104 < N + 1 := by
    have h : (2 : ℚ) ^ (104 : Nat) < (N : ℚ) + 1 := lt_of_le_of_lt hlow hN2
    exact_mod_cast h
  have hNhigh : N < 2 ^ 106 := by
    have h : (N : ℚ) < (2 : ℚ) ^ (106 : Nat) := lt_of_le_of_lt hN1 hhigh
    exact_mod_cast h
  obtain ⟨s1, s2⟩ := isqrt_spec hNhigh
  set m : Nat := isqrt N with hm
  have hm1 : 2 ^ 52 ≤ m := by
    by_contra hc
    have hlt : m + 1 ≤ 2 ^ 52 := Nat.lt_of_not_le hc
    have h3 : (m + 1) * (m + 1) ≤ 2 ^ 52 * 2 ^ 52 := Nat.mul_le_mul hlt hlt
    have e : (2 : Nat) ^ 52 * 2 ^ 52 = 2 ^ 104 := (pow_add 2 52 52).symm
    rw [e] at h3
    exact absurd (lt_of_lt_of_le hNlow (Nat.succ_le_of_lt s2)) (not_lt.mpr h3)
  have hm2 : m < 2 ^ 53 := by
    by_contra hc
    have hge : 2 ^ 53 ≤ m := Nat.le_of_not_lt hc
    have h3 : 2 ^ 53 * 2 ^ 53 ≤ m * m := Nat.mul_le_mul hge hge
    have e : (2 : Nat) ^ 53 * 2 ^ 53 = 2 ^ 106 := (pow_add 2 53 53).symm
    rw [e] at h3
    exact absurd (lt_of_le_of_lt (le_trans h3 s1) hNhigh) (lt_irrefl _)
  -- m^2 u^2 <= x < (m+1)^2 u^2
  have q1 : ((m : ℚ) * u) ^ 2 ≤ x := by
    have h : ((m * m : Nat) : ℚ) ≤ (N : ℚ) := by exact_mod_cast s1
    have h2 : ((m * m : Nat) : ℚ) ≤ x / (u * u) := le_trans h hN1
    rw [le_div_iff₀ (by positivity)] at h2
    push_cast at h2
    linarith [h2]
  have q2 : x < (((m + 1 : Nat) : ℚ) * u) ^ 2 := by
    have h : ((N + 1 : Nat) : ℚ) ≤ (((m + 1) * (m + 1) : Nat) : ℚ) := by
      exact_mod_cast s2
    have h2 : x / (u * u) < ((((m + 1) * (m + 1) : Nat)) : ℚ) := by
      refine lt_of_lt_of_le ?_ h
      push_cast
      exact hN2
    rw [div_lt_iff₀ (by positivity)] at h2
    push_cast at h2 ⊢
    linarith [h2]
  have hmid : ((2 * m + 1 : Nat) : ℚ) * u / 2 = (m : ℚ) * u + u / 2 := by
    push_cast
    ring
  have hmid2 : ((2 * m + 1 : Nat) : ℚ) * u / 2 = ((m + 1 : Nat) : ℚ) * u - u / 2 := by
    push_cast
    ring
  have hmpos : (0 : ℚ) ≤ (m : ℚ) * u := by positivity
  have hsq : sqrtRound x =
      (if x < (((2 * m + 1 : Nat) : ℚ) * u / 2) * (((2 * m + 1 : Nat) : ℚ) * u / 2) then
        (m : ℚ) * u
      else if (((2 * m + 1 : Nat) : ℚ) * u / 2) * (((2 * m + 1 : Nat) : ℚ) * u / 2) < x then
        ((m + 1 : Nat) : ℚ) * u
      else if m % 2 = 0 then (m : ℚ) * u
      else ((m + 1 : Nat) : ℚ) * u) := rfl
  have low_case : (∃ M : Nat, (m : ℚ) * u = (M : ℚ) * u ∧ 2 ^ 52 ≤ M ∧ M ≤ 2 ^ 53) :=
    ⟨m, rfl, hm1, hm2.le⟩
  have high_case : (∃ M : Nat, ((m + 1 : Nat) : ℚ) * u = (M : ℚ) * u ∧ 2 ^ 52 ≤ M ∧ M ≤ 2 ^ 53) :=
    ⟨m + 1, rfl, le_trans hm1 (Nat.le_succ m), Nat.succ_le_of_lt hm2⟩
  have hm52 : (1 : ℚ) ≤ (m : ℚ) := by
    have h1 : 1 ≤ m := le_trans Nat.one_le_two_pow hm1
    exact_mod_cast h1
  have hule : u ≤ (m : ℚ) * u := by
    calc u = 1 * u := (one_mul u).symm
      _ ≤ (m : ℚ) * u := mul_le_mul_of_nonneg_right hm52 hupos.le
  have lowB (h : x ≤ ((m : ℚ) * u + u / 2) ^ 2) :
      ((m : ℚ) * u - u / 2) ^ 2 ≤ x ∧ x ≤ ((m : ℚ) * u + u / 2) ^ 2 :=
    ⟨sq_sub_half_le hupos hule q1, h⟩
  have highB (h : (((m + 1 : Nat) : ℚ) * u - u / 2) ^ 2 ≤ x) :
      (((m + 1 : Nat) : ℚ) * u - u / 2) ^ 2 ≤ x ∧ x ≤ (((m + 1 : Nat) : ℚ) * u + u / 2) ^ 2 :=
    ⟨h, le_sq_add_half hupos (by positivity) q2⟩
  rw [hsq]
  split_ifs with c1 c2 c3
  · refine ⟨low_case, lowB ?_⟩
    rw [← hmid, sq]
    exact c1.le
  · refine ⟨high_case, highB ?_⟩
    rw [← hmid2, sq]
    exact c2.le
  · refine ⟨low_case, lowB ?_⟩
    rw [← hmid, sq]
    exact not_lt.mp c2
  · refine ⟨high_case, highB ?_⟩
    rw [← hmid2, sq]
    exact not_lt.mp c1

end Binary64

namespace Double

theorem ofRat_zero : ofRat 0 = finite 0 := by
  have hpos : (0 : ℚ) < (2 : ℚ) ^ 1024 := by positivity
  unfold ofRat
  rw [Binary64.round_zero]
  generalize (2 : ℚ) ^ 1024 = T at hpos ⊢
  rw [if_neg (not_le.mpr hpos), if_neg (by linarith)]

theorem ofRat_good {x : ℚ} (hx : 0 ≤ x) : Good (ofRat x) := by
  have h0 := Binary64.round_nonneg hx
  have hrr := Binary64.round_round hx
  have hpos : (0 : ℚ) < (2 : ℚ) ^ 1024 := by positivity
  unfold ofRat
  by_cases h1 : (2 : ℚ) ^ 1024 ≤ Binary64.round x
  · rw [if_pos h1]
    trivial
  · have h2 : ¬ Binary64.round x ≤ -(2 : ℚ) ^ 1024 := by
      generalize (2 : ℚ) ^ 1024 = T at hpos h1 ⊢
      intro h
      linarith
    rw [if_neg h1, if_neg h2]
    exact ⟨h0, hrr, lt_of_not_le h1⟩

theorem ofRat_eq_of_good {r : ℚ} (h : Good (finite r)) : ofRat r = finite r := by
  obtain ⟨h0, h1, h2⟩ := h
  have hpos : (0 : ℚ) < (2 : ℚ) ^ 1024 := by positivity
  unfold ofRat
  rw [h1]
  generalize (2 : ℚ) ^ 1024 = T at hpos h2 ⊢
  rw [if_neg (not_le.mpr h2), if_neg (by linarith)]

theorem le_posInf_of_good {a : Double} (ha : Good a) : le a posInf = true := by
  cases a with
  | finite r => rfl
  | posInf => rfl
  | negInf => exact ha.elim
  | nan => exact ha.elim

theorem le_refl_of_good {a : Double} (ha : Good a) : le a a = true := by
  cases a with
  | finite r => simp [le]
  | posInf => rfl
  | negInf => exact ha.elim
  | nan => exact ha.elim

theorem le_trans_good {a b c : Double} (hab : le a b = true) (hbc : le b c = true) :
    le a c = true := by
  cases a <;> cases b <;> cases c <;> simp_all [le]
  exact le_trans hab hbc

theorem ofRat_mono {x y : ℚ} (hx : 0 ≤ x) (h : x ≤ y) : le (ofRat x) (ofRat y) = true := by
  have hm := Binary64.round_mono hx h
  have h0 := Binary64.round_nonneg hx
  have hy0 := Binary64.round_nonneg (hx.trans h)
  have hpos : (0 : ℚ) < (2 : ℚ) ^ 1024 := by positivity
  unfold ofRat
  generalize (2 : ℚ) ^ 1024 = T at hpos ⊢
  by_cases hx1 : T ≤ Binary64.round x
  · rw [if_pos hx1, if_pos (hx1.trans hm)]
    rfl
  · rw [if_neg hx1, if_neg (by linarith)]
    by_cases hy1 : T ≤ Binary64.round y
    · rw [if_pos hy1]
      rfl
    · rw [if_neg hy1, if_neg (by linarith)]
      simpa [le] using hm

theorem add_finite_good {a : Double} (ha : Good a) {p : ℚ} (hp : 0 ≤ p) :
    Good (add a (finite p)) := by
  cases a with
  | finite r => exact ofRat_good (add_nonneg ha.1 hp)
  | posInf => trivial
  | negInf => exact ha.elim
  | nan => exact ha.elim

theorem le_add_finite {a : Double} (ha : Good a) {p : ℚ} (hp : 0 ≤ p) :
    le a (add a (finite p)) = true := by
  cases a with
  | finite r =>
      have h := ofRat_mono ha.1 (le_add_of_nonneg_right hp : r ≤ r + p)
      rw [ofRat_eq_of_good ha] at h
      exact h
  | posInf => rfl
  | negInf => exact ha.elim
  | nan => exact ha.elim

theorem add_finite_mono {a b : Double} (ha : Good a) (hb : Good b) (h : le a b = true)
    {p : ℚ} (hp : 0 ≤ p) : le (add a (finite p)) (add b (finite p)) = true := by
  cases a with
  | finite r =>
      cases b with
      | finite s =>
          have hrs : r ≤ s := by simpa [le] using h
          exact ofRat_mono (add_nonneg ha.1 hp) (add_le_add_right hrs p)
      | posInf => exact le_posInf_of_good (ofRat_good (add_nonneg ha.1 hp))
      | negInf => exact hb.elim
      | nan => exact hb.elim
  | posInf =>
      cases b with
      | finite s => simp [le] at h
      | posInf => rfl
      | negInf => exact hb.elim
      | nan => exact hb.elim
  | negInf => exact ha.elim
  | nan => exact ha.elim

theorem foldl_filter_le {α : Type} (f : α → ℚ) (k : α → Bool) (L : List α)
    (hf : ∀ x ∈ L, 0 ≤ f x) : ∀ a b : Double, Good a → Good b → le a b = true →
    le (((L.filter k).map f).foldl (fun acc p => add acc (finite p)) a)
      ((L.map f).foldl (fun acc p => add acc (finite p)) b) = true := by
  induction L with
  | nil => intro a b _ _ h; exact h
  | cons x rest ih =>
      intro a b ha hb h
      have hx : 0 ≤ f x := hf x (List.mem_cons_self _ _)
      have hrest : ∀ y ∈ rest, 0 ≤ f y := fun y hy => hf y (List.mem_cons_of_mem _ hy)
      rw [List.filter_cons]
      by_cases hk : k x = true
      · rw [if_pos hk]
        simp only [List.map_cons, List.foldl_cons]
        exact ih hrest _ _ (add_finite_good ha hx) (add_finite_good hb hx)
          (add_finite_mono ha hb h hx)
      · rw [if_neg hk]
        simp only [List.map_cons, List.foldl_cons]
        exact ih hrest _ _ ha (add_finite_good hb hx)
          (le_trans_good h (le_add_finite hb hx))

end Double

namespace Double

theorem ofRat_ne_nan (x : ℚ) : ofRat x ≠ nan := by
  unfold ofRat
  split_ifs <;> simp

theorem sub_finite_ne_nan {a : Double} (ha : a ≠ nan) (b : ℚ) : sub a (finite b) ≠ nan := by
  cases a with
  | finite r => exact ofRat_ne_nan _
  | posInf => simp [sub]
  | negInf => simp [sub]
  | nan => exact absurd rfl ha

theorem pow2_good {a : Double} (ha : a ≠ nan) : Good (pow2 a) := by
  cases a with
  | finite r => exact ofRat_good (mul_self_nonneg r)
  | posInf => trivial
  | negInf => trivial
  | nan => exact absurd rfl ha

theorem add_good {a b : Double} (ha : Good a) (hb : Good b) : Good (add a b) := by
  cases a with
  | finite r =>
      cases b with
      | finite s => exact ofRat_good (add_nonneg ha.1 hb.1)
      | posInf => trivial
      | negInf => exact hb.elim
      | nan => exact hb.elim
  | posInf =>
      cases b with
      | finite s => trivial
      | posInf => trivial
      | negInf => exact hb.elim
      | nan => exact hb.elim
  | negInf => exact ha.elim
  | nan => exact ha.elim

theorem sqrt_ne_nan_of_good {a : Double} (ha : Good a) : sqrt a ≠ nan := by
  cases a with
  | finite r =>
      show (if r < 0 then nan else if r = 0 then finite 0 else finite (Binary64.sqrtRound r)) ≠ nan
      rw [if_neg (not_lt.mpr ha.1)]
      split_ifs <;> simp
  | posInf => simp [sqrt]
  | negInf => exact ha.elim
  | nan => exact ha.elim

theorem eq_finite_iff (a : Double) (m : ℚ) : eq a (finite m) = true ↔ a = finite m := by
  cases a with
  | finite r => simp [eq]
  | posInf => simp [eq]
  | negInf => simp [eq]
  | nan => simp [eq]

theorem not_lt_eq_le {a b : Double} (ha : a ≠ nan) (hb : b ≠ nan) : (!lt b a) = le a b := by
  cases a with
  | finite r =>
      cases b with
      | finite s =>
          show (!decide (s < r)) = decide (r ≤ s)
          by_cases h : r ≤ s
          · simp [h, not_lt.mpr h]
          · simp [h, not_le.mp h]
      | posInf => rfl
      | negInf => rfl
      | nan => exact absurd rfl hb
  | posInf =>
      cases b with
      | finite s => rfl
      | posInf => rfl
      | negInf => rfl
      | nan => exact absurd rfl hb
  | negInf =>
      cases b with
      | finite s => rfl
      | posInf => rfl
      | negInf => rfl
      | nan => exact absurd rfl hb
  | nan => exact absurd rfl ha

end Double

/-! ## Theorems: `tagHFjet` -/

namespace AliAnalysisHFjetTagHFE

theorem tagHFjetLoop_iff (epT : Fin 3 → ℚ) (l : List (Option AliVParticle)) (b : Bool) :
    tagHFjetLoop epT l b = true ↔
      b = true ∨ ∃ c : AliVParticle, some c ∈ l ∧
        Double.lt (computedDistance epT c) (Double.ofRat 1e-8) = true := by
  induction l generalizing b with
  | nil => simp [tagHFjetLoop]
  | cons o rest ih =>
      cases o with
      | none =>
          rw [tagHFjetLoop, ih]
          simp
      | some c =>
          have hR : Rmatch epT c = computedDistance epT c := rfl
          rw [tagHFjetLoop, hR]
          cases h : Double.lt (computedDistance epT c) (Double.ofRat 1e-8) with
          | true =>
              simp only [if_true, ih, true_or, true_iff]
              exact Or.inr ⟨c, List.mem_cons_self _ _, h⟩
          | false =>
              simp only [Bool.false_eq_true, if_false, ih]
              constructor
              · rintro (hb | ⟨d, hd, hlt⟩)
                · exact Or.inl hb
                · exact Or.inr ⟨d, List.mem_cons_of_mem _ hd, hlt⟩
              · rintro (hb | ⟨d, hd, hlt⟩)
                · exact Or.inl hb
                · rcases List.mem_cons.mp hd with heq | hmem
                  · have : d = c := Option.some.inj heq
                    subst this
                    rw [h] at hlt
                    exact absurd hlt (by decide)
                  · exact Or.inr ⟨d, hmem, hlt⟩

theorem computedDistance_self (epT : Fin 3 → ℚ) (c : AliVParticle) (hx : c.Px = epT 0)
    (hy : c.Py = epT 1) (hz : c.Pz = epT 2) : computedDistance epT c = Double.finite 0 := by
  simp only [computedDistance, hx, hy, hz, Double.sub, sub_self, Double.ofRat_zero, Double.pow2,
    mul_zero, Double.add, add_zero, Double.sqrt, lt_self_iff_false, if_false, if_true]

theorem zero_lt_cut : Double.lt (Double.finite 0) (Double.ofRat 1e-8) = true := by decide!

/-- C1 (counterexample): two electron momenta (three doubles each) beside the constituent
`unitConstituent` of momentum (1, 0, 0). `epTnearCut` lies at a Euclidean distance below `1e-8`
from it, and `tagHFjet` returns false for the jet made of this constituent: the distance it
computes is the double `1e-8` itself. `epTpastCut` lies at a Euclidean distance not below `1e-8`
from it, and `tagHFjet` returns true: the distance it computes is below the double `1e-8`. -/
theorem tagHFjet_differs_from_exact_distance :
    ((Binary64.round (epTnearCut 0) = epTnearCut 0 ∧
        Binary64.round (epTnearCut 1) = epTnearCut 1 ∧
        Binary64.round (epTnearCut 2) = epTnearCut 2) ∧
      some unitConstituent ∈ ([some unitConstituent] : AliEmcalJet) ∧
      Real.sqrt ((((epTnearCut 0 - unitConstituent.Px : ℚ) : ℝ)) ^ 2 +
          (((epTnearCut 1 - unitConstituent.Py : ℚ) : ℝ)) ^ 2 +
          (((epTnearCut 2 - unitConstituent.Pz : ℚ) : ℝ)) ^ 2) < 1e-8 ∧
      Rmatch epTnearCut unitConstituent = Double.ofRat 1e-8 ∧
      tagHFjet [some unitConstituent] epTnearCut = false) ∧
    ((Binary64.round (epTpastCut 0) = epTpastCut 0 ∧
        Binary64.round (epTpastCut 1) = epTpastCut 1 ∧
        Binary64.round (epTpastCut 2) = epTpastCut 2) ∧
      (∀ c : AliVParticle, some c ∈ ([some unitConstituent] : AliEmcalJet) →
        (1e-8 : ℝ) ≤ Real.sqrt ((((epTpastCut 0 - c.Px : ℚ) : ℝ)) ^ 2 +
          (((epTpastCut 1 - c.Py : ℚ) : ℝ)) ^ 2 + (((epTpastCut 2 - c.Pz : ℚ) : ℝ)) ^ 2)) ∧
      tagHFjet [some unitConstituent] epTpastCut = true) := by
  refine ⟨⟨⟨by decide!, by decide!, by decide!⟩, List.mem_singleton.mpr rfl, ?_, by decide!,
    by decide!⟩, ⟨by decide!, by decide!, by decide!⟩, ?_, by decide!⟩
  · rw [Real.sqrt_lt' (by norm_num)]
    norm_num [epTnearCut, unitConstituent]
  · intro c hc
    have hcu : c = unitConstituent := by
      have h := List.mem_singleton.mp hc
      exact (Option.some.inj h)
    subst hcu
    rw [Real.le_sqrt' (by norm_num)]
    norm_num [epTpastCut, unitConstituent]

/-- C1 (amended): `tagHFjet` returns true exactly when some non-null constituent of the jet has
a computed distance to the electron momentum below the double `1e-8`, the computed distance
being the one of `computedDistance` (every difference, square, sum and the root rounded to the
nearest double); it returns true when a non-null constituent has the momentum of the electron;
and it returns false for a jet without constituents. -/
theorem tagHFjet_iff_exists_computed_close (jetC : AliEmcalJet) (epT : Fin 3 → ℚ) :
    (tagHFjet jetC epT = true ↔
      ∃ c : AliVParticle, some c ∈ jetC ∧
        Double.lt (computedDistance epT c) (Double.ofRat 1e-8) = true) ∧
    (∀ c : AliVParticle, some c ∈ jetC → c.Px = epT 0 → c.Py = epT 1 → c.Pz = epT 2 →
      tagHFjet jetC epT = true) ∧
    tagHFjet [] epT = false := by
  have key : tagHFjet jetC epT = true ↔
      ∃ c : AliVParticle, some c ∈ jetC ∧
        Double.lt (computedDistance epT c) (Double.ofRat 1e-8) = true := by
    unfold tagHFjet
    rw [tagHFjetLoop_iff]
    simp
  refine ⟨key, ?_, rfl⟩
  intro c hc hx hy hz
  rw [key]
  refine ⟨c, hc, ?_⟩
  rw [computedDistance_self epT c hx hy hz]
  exact zero_lt_cut

end AliAnalysisHFjetTagHFE

/-! ## Theorems: `ReduceJetEnergyScale` -/

namespace AliAnalysisHFjetTagHFE

theorem ReduceJetEnergyScale_loop_eq (epT : Fin 3 → ℚ) (effval : ℚ) (Uniform : Nat → ℚ)
    (l : List (Option AliVParticle)) : ∀ (n : Nat) (acc : Double),
    ReduceJetEnergyScale_loop epT effval Uniform l n acc =
      (((constituentsWithDraws Uniform l n).filter (fun cd =>
          Double.lt (computedDistance epT cd.1) (Double.ofRat 1e-8) || decide (effval < cd.2))).map
        (fun cd => cd.1.Pt)).foldl (fun a p => Double.add a (Double.finite p)) acc := by
  induction l with
  | nil => intro n acc; rfl
  | cons o rest ih =>
      intro n acc
      cases o with
      | none => exact ih n acc
      | some c =>
          have hR : Rmatch epT c = computedDistance epT c := rfl
          rw [ReduceJetEnergyScale_loop, constituentsWithDraws, List.filter_cons, hR]
          cases h : Double.lt (computedDistance epT c) (Double.ofRat 1e-8) with
          | true =>
              simp only [if_true, Bool.true_or, List.map_cons, List.foldl_cons]
              exact ih _ _
          | false =>
              by_cases hd : Uniform n > effval
              · have hd2 : effval < Uniform n := hd
                simp only [Bool.false_eq_true, if_false, hd, if_true, Bool.false_or,
                  decide_eq_true_eq, hd2, List.map_cons, List.foldl_cons]
                exact ih _ _
              · have hd2 : ¬ effval < Uniform n := hd
                simp only [Bool.false_eq_true, if_false, hd, Bool.false_or,
                  decide_eq_true_eq, hd2, List.map_cons, List.foldl_cons]
                exact ih _ _

theorem constituentsWithDraws_fst (Uniform : Nat → ℚ) (l : List (Option AliVParticle)) :
    ∀ n : Nat, (constituentsWithDraws Uniform l n).map Prod.fst = l.filterMap id := by
  induction l with
  | nil => intro n; rfl
  | cons o rest ih =>
      intro n
      cases o with
      | none => simpa [constituentsWithDraws] using ih n
      | some c => simpa [constituentsWithDraws] using ih (n + 1)

theorem constituentsWithDraws_snd (Uniform : Nat → ℚ) (l : List (Option AliVParticle)) :
    ∀ n : Nat, (constituentsWithDraws Uniform l n).map Prod.snd =
      (List.range' n (l.filterMap id).length).map Uniform := by
  induction l with
  | nil => intro n; rfl
  | cons o rest ih =>
      intro n
      cases o with
      | none => simpa [constituentsWithDraws] using ih n
      | some c => simpa [constituentsWithDraws, List.range'] using ih (n + 1)

theorem smallJet_nonneg : ∀ c : AliVParticle, some c ∈ smallJet → 0 ≤ c.Pt := by
  intro c hc
  simp only [smallJet, List.mem_cons, Option.some.injEq, List.mem_singleton, reduceCtorEq,
    List.not_mem_nil, or_false, false_or] at hc
  rcases hc with h | h <;> subst h <;> norm_num

/-- C19 (counterexample): three inputs. The constituent `unitConstituent` (pt 1) lies at a
Euclidean distance below `1e-8` from the electron momentum `epTnearCut`, its draw 0.25 is not
greater than `effval = 0.5`, and `ReduceJetEnergyScale` returns 0 for the jet made of this
constituent: the constituent is dropped although it matches the electron momentum within
`1e-8`. The same constituent lies at a distance not below `1e-8` from `epTpastCut`, its draw
0.25 is not greater than `effval = 0.5`, and the result is its pt 1: it is kept although it
neither matches within `1e-8` nor has a draw above `effval`. For the jet `tenthJet`, both
constituents kept by their draws, the result is the double `0.30000000000000004`, which is not
the sum of the two pt values. -/
theorem ReduceJetEnergyScale_differs_from_exact_sum :
    (Real.sqrt ((((epTnearCut 0 - unitConstituent.Px : ℚ) : ℝ)) ^ 2 +
        (((epTnearCut 1 - unitConstituent.Py : ℚ) : ℝ)) ^ 2 +
        (((epTnearCut 2 - unitConstituent.Pz : ℚ) : ℝ)) ^ 2) < 1e-8 ∧
      unitConstituent.Pt = 1 ∧
      ReduceJetEnergyScale [some unitConstituent] epTnearCut (1 / 2) (fun _ => 1 / 4)
        = Double.finite 0) ∧
    ((1e-8 : ℝ) ≤ Real.sqrt ((((epTpastCut 0 - unitConstituent.Px : ℚ) : ℝ)) ^ 2 +
        (((epTpastCut 1 - unitConstituent.Py : ℚ) : ℝ)) ^ 2 +
        (((epTpastCut 2 - unitConstituent.Pz : ℚ) : ℝ)) ^ 2) ∧
      ¬ ((1 / 4 : ℚ) > 1 / 2) ∧
      ReduceJetEnergyScale [some unitConstituent] epTpastCut (1 / 2) (fun _ => 1 / 4)
        = Double.finite 1) ∧
    (ReduceJetEnergyScale tenthJet ![1, 0, 0] 0 (fun _ => 1 / 2)
        = Double.finite (1351079888211149 / 4503599627370496) ∧
      ((tenthJet.filterMap id).map (fun c => c.Pt)).sum
        = 10808639105689191 / 36028797018963968 ∧
      (10808639105689191 / 36028797018963968 : ℚ) ≠ 1351079888211149 / 4503599627370496) := by
  refine ⟨⟨?_, rfl, by decide!⟩, ⟨?_, by norm_num, by decide!⟩, by decide!, by decide!,
    by decide!⟩
  · rw [Real.sqrt_lt' (by norm_num)]
    norm_num [epTnearCut, unitConstituent]
  · rw [Real.le_sqrt' (by norm_num)]
    norm_num [epTpastCut, unitConstituent]

/-- C19 (amended): `ReduceJetEnergyScale` returns the running sum in `double` (start 0, one
rounded addition per term, in jet order) of pt over the kept constituents: the non-null
constituents, each with the draw made for it, whose computed distance to the electron momentum
(`computedDistance`) is below the double `1e-8` or whose draw is greater than `effval`. The
constituents with their draws are the non-null constituents of the jet in order, the one at
position `k` among them with the draw number `k` of the generator. A constituent
whose computed distance is below the cut is kept whatever its draw, in particular one whose
momentum equals the electron momentum. For non-negative constituent pt the result is at most the
running sum of pt over all non-null constituents. -/
theorem ReduceJetEnergyScale_computed_sum (jetC : AliEmcalJet) (epT : Fin 3 → ℚ) (effval : ℚ)
    (Uniform : Nat → ℚ) :
    ReduceJetEnergyScale jetC epT effval Uniform =
      runningSum ((keptConstituents epT effval Uniform jetC).map (fun cd => cd.1.Pt)) ∧
    (constituentsWithDraws Uniform jetC 0).map Prod.fst = jetC.filterMap id ∧
    (constituentsWithDraws Uniform jetC 0).map Prod.snd =
      (List.range (jetC.filterMap id).length).map Uniform ∧
    (∀ cd ∈ constituentsWithDraws Uniform jetC 0,
      Double.lt (computedDistance epT cd.1) (Double.ofRat 1e-8) = true →
      cd ∈ keptConstituents epT effval Uniform jetC) ∧
    (∀ cd ∈ constituentsWithDraws Uniform jetC 0,
      cd.1.Px = epT 0 → cd.1.Py = epT 1 → cd.1.Pz = epT 2 →
      cd ∈ keptConstituents epT effval Uniform jetC) ∧
    ((∀ c : AliVParticle, some c ∈ jetC → 0 ≤ c.Pt) →
      Double.le (ReduceJetEnergyScale jetC epT effval Uniform)
        (runningSum ((jetC.filterMap id).map (fun c => c.Pt))) = true) := by
  have hkeep : ∀ cd ∈ constituentsWithDraws Uniform jetC 0,
      Double.lt (computedDistance epT cd.1) (Double.ofRat 1e-8) = true →
      cd ∈ keptConstituents epT effval Uniform jetC := by
    intro cd hcd hlt
    unfold keptConstituents
    rw [List.mem_filter]
    exact ⟨hcd, by rw [hlt]; rfl⟩
  have hloop : ReduceJetEnergyScale jetC epT effval Uniform =
      runningSum ((keptConstituents epT effval Uniform jetC).map (fun cd => cd.1.Pt)) := by
    unfold ReduceJetEnergyScale runningSum keptConstituents
    rw [ReduceJetEnergyScale_loop_eq]
  refine ⟨hloop, constituentsWithDraws_fst Uniform jetC 0, ?_, hkeep, ?_, ?_⟩
  · rw [constituentsWithDraws_snd, List.range_eq_range']
  · intro cd hcd hx hy hz
    apply hkeep cd hcd
    rw [computedDistance_self epT cd.1 hx hy hz]
    exact zero_lt_cut
  · intro hpt
    rw [hloop, ← constituentsWithDraws_fst Uniform jetC 0, List.map_map]
    unfold runningSum keptConstituents
    have hzero : Double.Good (Double.finite 0) := by
      refine ⟨le_refl _, Binary64.round_zero, by positivity⟩
    apply Double.foldl_filter_le (fun cd : AliVParticle × ℚ => cd.1.Pt) _ _ _ _ _ hzero hzero
      (Double.le_refl_of_good hzero)
    intro cd hcd
    apply hpt
    have hmem : cd.1 ∈ (constituentsWithDraws Uniform jetC 0).map Prod.fst :=
      List.mem_map_of_mem _ hcd
    rw [constituentsWithDraws_fst] at hmem
    rw [List.mem_filterMap] at hmem
    obtain ⟨o, ho, he⟩ := hmem
    simp only [id] at he
    rw [he] at ho
    exact ho

/-- Witness for C19: `smallJet` with the electron momentum equal to that of its first
constituent and every draw equal to `effval = 0.5`: the first constituent is kept, the second
dropped, and the result 1 is at most the running sum 3 over both. -/
theorem ReduceJetEnergyScale_computed_sum_witness :
    (∀ c : AliVParticle, some c ∈ smallJet → 0 ≤ c.Pt) ∧
    ReduceJetEnergyScale smallJet ![1, 0, 0] (1 / 2) (fun _ => 1 / 2) = Double.finite 1 ∧
    runningSum ((smallJet.filterMap id).map (fun c => c.Pt)) = Double.finite 3 ∧
    Double.le (ReduceJetEnergyScale smallJet ![1, 0, 0] (1 / 2) (fun _ => 1 / 2))
      (runningSum ((smallJet.filterMap id).map (fun c => c.Pt))) = true :=
  ⟨smallJet_nonneg, by decide!, by decide!,
    (ReduceJetEnergyScale_computed_sum smallJet ![1, 0, 0] (1 / 2) (fun _ => 1 / 2)).2.2.2.2.2
      smallJet_nonneg⟩

end AliAnalysisHFjetTagHFE

/-! ## Theorems: `IsolationCut` -/

namespace AliAnalysisHFjetTagHFE

theorem two_pi_eq :
    Double.mul (Double.finite 2) (Double.ofRat TMath.Pi) = Double.finite twoPi := by
  decide!

theorem AssoPhi_eq (c : AssoCluster) : AssoPhi c = computedPhi c := by
  unfold AssoPhi computedPhi
  rw [two_pi_eq]
  simp [Double.lt]

theorem AssoPhi_ne_nan (c : AssoCluster) : AssoPhi c ≠ Double.nan := by
  rw [AssoPhi_eq]
  unfold computedPhi
  split_ifs
  · exact Double.ofRat_ne_nan _
  · simp

theorem IsolationCut_step (MatchPhi MatchEta MatchclE : ℚ) (c : AssoCluster)
    (rest : List (Option AssoCluster)) (riso : Double) :
    IsolationCut_loop MatchPhi MatchEta MatchclE (some c :: rest) riso =
      IsolationCut_loop MatchPhi MatchEta MatchclE rest
        (if computedInCone MatchPhi MatchEta MatchclE c then Double.add riso (Double.finite c.E)
          else riso) := by
  have hcone : (!Double.lt (Double.ofRat 0.4) (Double.sqrt (Double.add
      (Double.pow2 (Double.sub (AssoPhi c) (Double.finite MatchPhi)))
      (Double.pow2 (Double.sub (Double.finite c.Eta) (Double.finite MatchEta)))))) =
      Double.le (Double.sqrt (Double.add
      (Double.pow2 (Double.sub (AssoPhi c) (Double.finite MatchPhi)))
      (Double.pow2 (Double.sub (Double.finite c.Eta) (Double.finite MatchEta)))))
        (Double.ofRat 0.4) :=
    Double.not_lt_eq_le
      (Double.sqrt_ne_nan_of_good (Double.add_good
        (Double.pow2_good (Double.sub_finite_ne_nan (AssoPhi_ne_nan c) _))
        (Double.pow2_good (Double.sub_finite_ne_nan (by simp) _))))
      (Double.ofRat_ne_nan _)
  have hspec : computedInCone MatchPhi MatchEta MatchclE c =
      (c.IsEMCAL &&
      !(decide (c.E = MatchclE) && Double.eq (AssoPhi c) (Double.finite MatchPhi) &&
        decide (c.Eta = MatchEta)) &&
      (Double.lt (Double.ofRat 1.39) (AssoPhi c) && Double.lt (AssoPhi c) (Double.ofRat 3.265)) &&
      Double.le (Double.sqrt (Double.add
        (Double.pow2 (Double.sub (AssoPhi c) (Double.finite MatchPhi)))
        (Double.pow2 (Double.sub (Double.finite c.Eta) (Double.finite MatchEta)))))
        (Double.ofRat 0.4)) := by
    rw [AssoPhi_eq]
    rfl
  rw [hspec, ← hcone, IsolationCut_loop]
  have e1 : Double.eq (Double.finite c.E) (Double.finite MatchclE) = decide (c.E = MatchclE) := rfl
  have e2 : Double.eq (Double.finite c.Eta) (Double.finite MatchEta) = decide (c.Eta = MatchEta) :=
    rfl
  simp only [e1, e2]
  cases c.IsEMCAL <;>
  cases decide (c.E = MatchclE) <;>
  cases Double.eq (AssoPhi c) (Double.finite MatchPhi) <;>
  cases decide (c.Eta = MatchEta) <;>
  cases Double.lt (Double.ofRat 1.39) (AssoPhi c) <;>
  cases Double.lt (AssoPhi c) (Double.ofRat 3.265) <;>
  cases Double.lt (Double.ofRat 0.4) (Double.sqrt (Double.add
      (Double.pow2 (Double.sub (AssoPhi c) (Double.finite MatchPhi)))
      (Double.pow2 (Double.sub (Double.finite c.Eta) (Double.finite MatchEta))))) <;>
  rfl

theorem IsolationCut_loop_eq (MatchPhi MatchEta MatchclE : ℚ) (l : List (Option AssoCluster)) :
    ∀ riso : Double, IsolationCut_loop MatchPhi MatchEta MatchclE l riso =
      (((l.filterMap id).filter (computedInCone MatchPhi MatchEta MatchclE)).map
        (fun c => c.E)).foldl (fun acc p => Double.add acc (Double.finite p)) riso := by
  induction l with
  | nil => intro riso; rfl
  | cons o rest ih =>
      intro riso
      cases o with
      | none =>
          rw [IsolationCut_loop, ih]
          rfl
      | some c =>
          rw [IsolationCut_step, ih]
          have hfm : (some c :: rest).filterMap id = c :: rest.filterMap id := rfl
          rw [hfm, List.filter_cons]
          by_cases h : computedInCone MatchPhi MatchEta MatchclE c = true
          · rw [if_pos h, if_pos h]
            rfl
          · rw [if_neg h, if_neg h]

theorem length_filter_isSome {α : Type} (l : List (Option α)) :
    (l.filter (fun slot => slot.isSome)).length = (l.filterMap id).length := by
  induction l with
  | nil => rfl
  | cons o rest ih =>
      cases o with
      | none => simpa using ih
      | some a => simpa using ih

theorem take_length_map_some {α : Type} (l : List α) :
    ((l.map some).take ((l.map some).filterMap id).length).filterMap id = l := by
  have h : (l.map some).filterMap id = l := by
    induction l with
    | nil => rfl
    | cons a rest ih => simp
  rw [h]
  have h2 : (l.map some).take l.length = l.map some := by
    apply List.take_of_length_le
    simp
  rw [h2, h]

/-- C18 (counterexample): three inputs with matched values phi 2, eta 0, energy 2. For the
array `holeClusters` (matched cluster, empty slot, a neighbour of energy 1 inside the cone) the
sum of the claim is 1/2, while `IsolationCut` returns 0: `GetEntries()` is 2, so the loop reads
the slots 0 and 1 only and never reaches the neighbour (with the empty slot taken out of the
array it returns 1/2). For the array `rimClusters`, without empty slot, the second cluster lies
at a cone distance above 0.4, so the sum of the claim is 0, while `IsolationCut` returns 1/2:
the distance it computes is the double `0.4` itself. For the array `tenthClusters`, both
clusters inside the cone, `IsolationCut` returns the double `0.15000000000000002`, which is not
the sum of the two energies divided by 2. -/
theorem IsolationCut_differs_from_cone_sum :
    (specIsolationCut 2 0 2 holeClusters = 1 / 2 ∧
      IsolationCut 2 0 2 holeClusters = some (Double.finite 0) ∧
      IsolationCut 2 0 2 (holeClusters.filter (fun slot => slot.isSome)) =
        some (Double.finite (1 / 2))) ∧
    ((0.4 : ℝ) < Real.sqrt ((((9 / 4 - 2 : ℚ) : ℝ)) ^ 2 +
        (((5624994131703305 / 18014398509481984 - 0 : ℚ) : ℝ)) ^ 2) ∧
      specIsolationCut 2 0 2 rimClusters = 0 ∧
      IsolationCut 2 0 2 rimClusters = some (Double.finite (1 / 2))) ∧
    (specIsolationCut 2 0 2 tenthClusters = 10808639105689191 / 72057594037927936 ∧
      IsolationCut 2 0 2 tenthClusters =
        some (Double.finite (1351079888211149 / 9007199254740992)) ∧
      (10808639105689191 / 72057594037927936 : ℚ) ≠ 1351079888211149 / 9007199254740992) := by
  refine ⟨⟨by decide!, by decide!, by decide!⟩, ⟨?_, by decide!, by decide!⟩,
    by decide!, by decide!, by decide!⟩
  rw [Real.lt_sqrt (by norm_num)]
  norm_num

theorem IsolationCut_eq_computed_of_slots (MatchPhi MatchEta MatchclE : ℚ)
    (fCaloClusters : List (Option AssoCluster)) :
    IsolationCut MatchPhi MatchEta MatchclE fCaloClusters =
      (if MatchclE = 0 then none
       else some (computedIsolation MatchPhi MatchEta MatchclE
         ((fCaloClusters.take (fCaloClusters.filterMap id).length).filterMap id))) := by
  unfold IsolationCut computedIsolation runningSum
  simp only [length_filter_isSome, IsolationCut_loop_eq]

/-- C18 (amended): for a cluster array without empty slot and a matched energy different from
zero, `IsolationCut` returns the running sum in `double` (start 0, one rounded addition per
cluster, in array order) of the energies of the clusters of the array selected by
`computedInCone`, divided in `double` by the matched energy; for a matched energy equal to zero
the result is no number of the model (an infinity or NaN). The selected clusters are the EMCAL
clusters, other than the matched one, at `1.39 < phi < 3.265` and within the computed cone
distance 0.4; a cluster is taken for the matched one (and skipped) iff its energy, phi and eta
are all equal to the matched values. -/
theorem IsolationCut_eq_computed (MatchPhi MatchEta MatchclE : ℚ)
    (clusters : List AssoCluster) :
    IsolationCut MatchPhi MatchEta MatchclE (clusters.map some) =
      (if MatchclE = 0 then none
       else some (Double.divFinite
         (runningSum ((clusters.filter (computedInCone MatchPhi MatchEta MatchclE)).map
           (fun c => c.E)))
         MatchclE)) ∧
    (∀ c : AssoCluster, computedInCone MatchPhi MatchEta MatchclE c = true ↔
      (c.IsEMCAL = true ∧
       ¬ (c.E = MatchclE ∧ computedPhi c = Double.finite MatchPhi ∧ c.Eta = MatchEta) ∧
       (Double.lt (Double.ofRat 1.39) (computedPhi c) = true ∧
         Double.lt (computedPhi c) (Double.ofRat 3.265) = true) ∧
       Double.le (computedConeR MatchPhi MatchEta c) (Double.ofRat 0.4) = true)) := by
  constructor
  · rw [IsolationCut_eq_computed_of_slots, take_length_map_some]
    rfl
  · intro c
    unfold computedInCone
    simp only [Bool.and_eq_true, Bool.not_eq_true', Bool.and_eq_false_iff,
      decide_eq_false_iff_not, decide_eq_true_eq, Double.eq_finite_iff, not_and_or,
      Bool.eq_false_iff, ne_eq]
    constructor
    · rintro ⟨⟨⟨h1, h2⟩, h3⟩, h4⟩
      refine ⟨h1, ?_, h3, h4⟩
      rcases h2 with (h2 | h2) | h2
      · exact Or.inl h2
      · exact Or.inr (Or.inl h2)
      · exact Or.inr (Or.inr h2)
    · rintro ⟨h1, h2, h3, h4⟩
      refine ⟨⟨⟨h1, ?_⟩, h3⟩, h4⟩
      rcases h2 with h2 | h2 | h2
      · exact Or.inl (Or.inl h2)
      · exact Or.inl (Or.inr h2)
      · exact Or.inr h2

end AliAnalysisHFjetTagHFE

end AliPhysics
